import Mathlib

/-!
Verification development for the contract-filler skill.

This file gives a shallow embedding, in Lean 4, of the core logic of the
repository (field semantics, completion tracking, alias propagation, the
contract-type router, the field-name canonicalizer, the currency formatter
and the placeholder renderer), together with theorems that settle the
behavioural claims about that logic.

Modelling conventions:
* Python runtime values stored in a field-value mapping are modelled by
  `PyVal` (the persisted schema admits strings and booleans).
* Python dicts that are only read pointwise are modelled as functions
  `String → Option PyVal`; dicts that are built up and returned are
  modelled as insertion-ordered association lists with an
  assignment operation (`dictSet`) mirroring `d[k] = v`.
* Python's stable `sorted` is modelled by a stable insertion sort
  (`sortStable`); a stable sort of a list by a key is unique, so this
  agrees with Python's timsort.
* Python floats are modelled exactly (no binary-rounding artifacts) by
  `Dec`, an exact decimal fixed-point number, plus infinities and NaN;
  the claims settled here do not depend on binary float rounding.
* All definitions are computable and evaluate by kernel reduction or by
  rewriting with their equations, so every theorem can be instantiated on
  concrete inputs.
-/

namespace ContractFiller

/-- A Python runtime value as stored in `field_values` (the persisted
schema allows strings and booleans). -/
inductive PyVal where
  | str (s : String)
  | bool (b : Bool)
deriving DecidableEq, Repr

/-- Python truthiness for a `PyVal`: a string is truthy iff non-empty,
a boolean is its own truth value. -/
def PyVal.truthy : PyVal → Bool
  | .str s => !(s == "")
  | .bool b => b

/-- Python `str(val)` for a `PyVal`. -/
def PyVal.pyStr : PyVal → String
  | .str s => s
  | .bool b => if b then "True" else "False"

/-- Python `s.strip()`: remove leading and trailing whitespace. -/
def pyStrip (s : String) : String :=
  String.mk (((s.data.dropWhile Char.isWhitespace).reverse.dropWhile Char.isWhitespace).reverse)

/-- A field-value mapping (`field_values`), read pointwise like a Python dict:
`values f = some v` means `f in field_values and field_values[f] == v`. -/
abbrev Values := String → Option PyVal

/-- Functional update of a value mapping, modelling `d[k] = v`. -/
def Values.set (values : Values) (k : String) (v : PyVal) : Values :=
  fun f => if f = k then some v else values f

/-- From `base_config.py`: `CHECKBOX_CHECKED_VALUES`. -/
def CHECKBOX_CHECKED_VALUES : List PyVal :=
  [.bool true, .str "true", .str "True", .str "☑", .str "checked",
   .str "是", .str "选中", .str "yes", .str "Yes", .str "YES", .str "1"]

/-- From `base_config.py`: `CHECKBOX_UNCHECKED_VALUES`. -/
def CHECKBOX_UNCHECKED_VALUES : List PyVal :=
  [.bool false, .str "false", .str "False", .str "☐", .str "unchecked",
   .str "否", .str "不选", .str "no", .str "No", .str "NO", .str "0"]

/-- From `base_config.py`: `CHECKBOX_VALID_VALUES`. -/
def CHECKBOX_VALID_VALUES : List PyVal :=
  CHECKBOX_CHECKED_VALUES ++ CHECKBOX_UNCHECKED_VALUES

/-- From `base_config.py`: `is_checkbox_checked(val)`. -/
def is_checkbox_checked (val : PyVal) : Bool :=
  CHECKBOX_CHECKED_VALUES.contains val

/-- Whether a field name starts with the checkbox marker glyph,
modelling `field_name.startswith("☐")`. -/
def isCheckboxName (field_name : String) : Bool :=
  match field_name.data with
  | '☐' :: _ => true
  | _ => false

/-- From `base_config.py`: `is_field_filled(field_name, field_values)`. -/
def is_field_filled (field_name : String) (field_values : Values) : Bool :=
  match field_values field_name with
  | none => false
  | some val =>
    if isCheckboxName field_name then
      if CHECKBOX_VALID_VALUES.contains val then true
      else
        match val with
        | .str s => !(pyStrip s == "")
        | .bool _ => false
    else
      match val with
      | .bool _ => false
      | .str s => !(s == "") && !(pyStrip s == "")

/-- A placeholder group as declared in a contract config: the code reads
only its `priority` and its ordered `fields` list (the `description` and
`ask` strings are display-only and not modelled). -/
structure GroupInfo where
  priority : Int
  fields : List String
deriving DecidableEq, Repr

/-- A `PLACEHOLDER_GROUPS` dict, as an insertion-ordered association list
(Python dicts preserve insertion order and have unique keys). -/
abbrev Groups := List (String × GroupInfo)

/-- From `base_config.py`: `get_all_fields(placeholder_groups)`. -/
def get_all_fields (placeholder_groups : Groups) : List String :=
  (placeholder_groups.map (fun g => g.2.fields)).flatten

/-- Presence-and-truthiness test `f in field_values and field_values[f]`
used by `get_progress`. -/
def presentTruthy (field_values : Values) (f : String) : Bool :=
  match field_values f with
  | some v => v.truthy
  | none => false

/-- Per-group progress record produced by `get_progress`. -/
structure GroupProgress where
  filled : Nat
  total : Nat
  complete : Bool
deriving DecidableEq, Repr

/-- Result record of `get_progress` (the float `percentage` is modelled
as an exact rational). -/
structure Progress where
  total : Nat
  filled : Nat
  percentage : ℚ
  groups : List (String × GroupProgress)
deriving Repr

/-- From `base_config.py`: `get_progress(field_values, placeholder_groups)`.
The filled counts use `f in field_values and field_values[f]`
(presence plus Python truthiness). -/
def get_progress (field_values : Values) (placeholder_groups : Groups) : Progress :=
  let all_fields := get_all_fields placeholder_groups
  let total := all_fields.length
  let filled := (all_fields.filter (presentTruthy field_values)).length
  let group_progress := placeholder_groups.map (fun g =>
    let g_total := g.2.fields.length
    let g_filled := (g.2.fields.filter (presentTruthy field_values)).length
    (g.1, GroupProgress.mk g_filled g_total (g_filled == g_total)))
  { total := total
    filled := filled
    percentage := if total > 0 then (filled : ℚ) / (total : ℚ) * 100 else 0
    groups := group_progress }

/-- Stable insertion into a sorted list: `e` is placed before the first
element `x` with `le e x`. -/
def insertSorted (le : α → α → Bool) (e : α) : List α → List α
  | [] => [e]
  | x :: xs => if le e x then e :: x :: xs else x :: insertSorted le e xs

/-- Stable sort by `le`, modelling Python's stable `sorted`: elements that
compare equal keep their original relative order. -/
def sortStable (le : α → α → Bool) : List α → List α
  | [] => []
  | x :: xs => insertSorted le x (sortStable le xs)

/-- The ascending-priority comparison `key=lambda x: x[1]["priority"]`
used by `get_next_unfilled_group` to sort groups. -/
def priorityLe (a b : String × GroupInfo) : Bool :=
  decide (a.2.priority ≤ b.2.priority)

/-- From `base_config.py`: `get_next_unfilled_group(field_values,
placeholder_groups)`: sort groups by ascending priority (stably) and
return the first whose fields contain one failing `is_field_filled`. -/
def get_next_unfilled_group (field_values : Values) (placeholder_groups : Groups) :
    Option String :=
  let sorted_groups := sortStable priorityLe placeholder_groups
  (sorted_groups.find? (fun g =>
    g.2.fields.any (fun f => !(is_field_filled f field_values)))).map (fun g => g.1)

/-- A `FIELD_ALIASES` table: source field to list of target fields,
in dict insertion order. -/
abbrev Aliases := List (String × List String)

/-- One target write of `apply_aliases`: `updated[target] = updated[source]`
guarded by `target not in updated or not updated[target]`. -/
def applyAliasTarget (v : PyVal) (acc : Values) (target : String) : Values :=
  match acc target with
  | some w => if w.truthy then acc else acc.set target v
  | none => acc.set target v

/-- Inner loop of `apply_aliases`: write the (truthy) source value `v` onto
every target that is absent or falsy. -/
def applyAliasTargets (v : PyVal) (targets : List String) (updated : Values) : Values :=
  targets.foldl (applyAliasTarget v) updated

/-- One iteration of the `apply_aliases` outer loop, for a single
`source: targets` entry of the alias table. -/
def applyAliasStep (updated : Values) (st : String × List String) : Values :=
  match updated st.1 with
  | some v => if v.truthy then applyAliasTargets v st.2 updated else updated
  | none => updated

/-- From `base_config.py`: `apply_aliases(field_values, field_aliases)`.
For each alias source holding a truthy value, copy its value onto every
target that is absent or falsy. -/
def apply_aliases (field_values : Values) (field_aliases : Aliases) : Values :=
  field_aliases.foldl applyAliasStep field_values

/-! ### Properties of the stable sort -/

theorem insertSorted_perm (le : α → α → Bool) (e : α) (l : List α) :
    (insertSorted le e l).Perm (e :: l) := by
  induction l with
  | nil => exact List.Perm.refl _
  | cons x xs ih =>
    by_cases h : le e x
    · simp [insertSorted, h]
    · simp only [insertSorted, h, if_false]
      exact (ih.cons x).trans (List.Perm.swap e x xs)

theorem sortStable_perm (le : α → α → Bool) (l : List α) :
    (sortStable le l).Perm l := by
  induction l with
  | nil => exact List.Perm.refl _
  | cons x xs ih =>
    exact (insertSorted_perm le x (sortStable le xs)).trans (ih.cons x)

theorem insertSorted_pairwise {le : α → α → Bool}
    (htot : ∀ a b, le a b = false → le b a = true)
    (htrans : ∀ a b c, le a b = true → le b c = true → le a c = true)
    (e : α) {l : List α} (hl : l.Pairwise (fun a b => le a b = true)) :
    (insertSorted le e l).Pairwise (fun a b => le a b = true) := by
  induction l with
  | nil => simp [insertSorted]
  | cons x xs ih =>
    rcases List.pairwise_cons.mp hl with ⟨hx, hxs⟩
    by_cases h : le e x
    · simp only [insertSorted, h, if_true]
      refine List.Pairwise.cons ?_ hl
      intro y hy
      rcases List.mem_cons.mp hy with rfl | hy
      · exact h
      · exact htrans e x y h (hx y hy)
    · simp only [insertSorted, h, if_false]
      refine List.Pairwise.cons ?_ (ih hxs)
      intro y hy
      rcases List.mem_cons.mp (((insertSorted_perm le e xs).mem_iff).mp hy) with rfl | hy
      · exact htot _ x (Bool.eq_false_iff.mpr h)
      · exact hx y hy

theorem sortStable_pairwise {le : α → α → Bool}
    (htot : ∀ a b, le a b = false → le b a = true)
    (htrans : ∀ a b c, le a b = true → le b c = true → le a c = true)
    (l : List α) :
    (sortStable le l).Pairwise (fun a b => le a b = true) := by
  induction l with
  | nil => simp [sortStable]
  | cons x xs ih => exact insertSorted_pairwise htot htrans x ih

/-! ### Claim C7: get_next_unfilled_group -/

theorem priorityLe_total (a b : String × GroupInfo) :
    priorityLe a b = false → priorityLe b a = true := by
  simp only [priorityLe, decide_eq_false_iff_not, decide_eq_true_eq]
  omega

theorem priorityLe_trans (a b c : String × GroupInfo) :
    priorityLe a b = true → priorityLe b c = true → priorityLe a c = true := by
  simp only [priorityLe, decide_eq_true_eq]
  omega

/-- C7: `get_next_unfilled_group` returns `none` exactly when every field of
every group satisfies `is_field_filled`, and otherwise returns a group that
contains an unfilled field and such that every group of strictly smaller
priority is completely filled (i.e. the first unfilled group in ascending
priority order). -/
theorem next_unfilled_group_spec (values : Values) (gs : Groups) :
    (get_next_unfilled_group values gs = none ↔
      ∀ g ∈ gs, ∀ f ∈ g.2.fields, is_field_filled f values = true) ∧
    (∀ name, get_next_unfilled_group values gs = some name →
      ∃ gi, (name, gi) ∈ gs ∧ (∃ f ∈ gi.fields, is_field_filled f values = false) ∧
        ∀ g' ∈ gs, g'.2.priority < gi.priority →
          ∀ f ∈ g'.2.fields, is_field_filled f values = true) := by
  have hperm := sortStable_perm priorityLe gs
  have hpw := sortStable_pairwise priorityLe_total priorityLe_trans gs
  constructor
  · rw [get_next_unfilled_group, Option.map_eq_none', List.find?_eq_none]
    constructor
    · intro h g hg f hf
      have hg' := hperm.mem_iff.mpr hg
      have := h g hg'
      simp only [List.any_eq_true, Bool.not_eq_true', not_exists, not_and] at this
      have := this f hf
      simpa using this
    · intro h g hg
      have hg' := hperm.mem_iff.mp hg
      simp only [List.any_eq_true, Bool.not_eq_true', not_exists, not_and]
      intro f hf
      simp [h g hg' f hf]
  · intro name hname
    rw [get_next_unfilled_group, Option.map_eq_some'] at hname
    obtain ⟨g, hfind, hg1⟩ := hname
    rw [List.find?_eq_some] at hfind
    obtain ⟨hpred, as, bs, hdecomp, hbefore⟩ := hfind
    refine ⟨g.2, ?_, ?_, ?_⟩
    · rw [← hg1]
      exact hperm.mem_iff.mp (by rw [hdecomp]; exact List.mem_append_right as (List.mem_cons_self g bs))
    · simp only [List.any_eq_true, Bool.not_eq_true'] at hpred
      obtain ⟨f, hf, hff⟩ := hpred
      exact ⟨f, hf, hff⟩
    · intro g' hg' hlt f hf
      have hg'mem : g' ∈ sortStable (fun a b => priorityLe a b) gs := hperm.mem_iff.mpr hg'
      rw [hdecomp] at hg'mem
      rcases List.mem_append.mp hg'mem with hin | hin
      · have := hbefore g' hin
        simp only [Bool.not_eq_eq_eq_not, Bool.not_true, List.any_eq_false,
          Bool.not_eq_true'] at this
        simpa using this f hf
      · rcases List.mem_cons.mp hin with rfl | hin
        · omega
        · exfalso
          rw [hdecomp] at hpw
          have hsub : (g :: bs).Sublist (as ++ g :: bs) := List.sublist_append_right as (g :: bs)
          have := List.rel_of_pairwise_cons (hpw.sublist hsub) hin
          simp only [priorityLe, decide_eq_true_eq] at this
          omega

/-- Concrete taxonomy used to instantiate `next_unfilled_group_spec`. -/
def gsC7 : Groups := [("g2", GroupInfo.mk 2 ["b"]), ("g1", GroupInfo.mk 1 ["a"])]

/-- Concrete value set used to instantiate `next_unfilled_group_spec`. -/
def valsC7 : Values := fun f => if f = "a" then some (.str "v") else none

/-- Witness instantiating `next_unfilled_group_spec` on a concrete taxonomy:
group `g1` (priority 1) is fully filled, so the chosen group `g2` contains
an unfilled field and every strictly lower-priority group is complete. -/
theorem next_unfilled_group_spec_witness :
    ∃ gi, ("g2", gi) ∈ gsC7 ∧ (∃ f ∈ gi.fields, is_field_filled f valsC7 = false) ∧
      ∀ g' ∈ gsC7, g'.2.priority < gi.priority →
        ∀ f ∈ g'.2.fields, is_field_filled f valsC7 = true :=
  (next_unfilled_group_spec valsC7 gsC7).2 "g2" (by decide)

/-! ### Claim C1: get_progress counts versus is_field_filled -/

/-- A stored value on which presence-plus-truthiness agrees with
`is_field_filled`: a non-boolean (string) value that is empty or has
non-whitespace content, or absence. -/
def tameValue : Option PyVal → Bool
  | some (.str s) => (s == "") || !(pyStrip s == "")
  | some (.bool _) => false
  | none => true

theorem pyStrip_empty : pyStrip "" = "" := rfl

theorem checkbox_contains_str {s : String}
    (h : CHECKBOX_VALID_VALUES.contains (PyVal.str s) = true) : ¬ pyStrip s = "" := by
  have hmem : PyVal.str s ∈ CHECKBOX_VALID_VALUES := by simpa using h
  simp only [CHECKBOX_VALID_VALUES, CHECKBOX_CHECKED_VALUES, CHECKBOX_UNCHECKED_VALUES,
    List.mem_append, List.mem_cons, List.not_mem_nil, or_false] at hmem
  rcases hmem with hmem | hmem <;>
    rcases hmem with h1 | h1 | h1 | h1 | h1 | h1 | h1 | h1 | h1 | h1 | h1 <;>
      simp_all <;> decide

theorem presentTruthy_eq_isFilled {values : Values} {f : String}
    (h : tameValue (values f) = true) :
    presentTruthy values f = is_field_filled f values := by
  rw [presentTruthy, is_field_filled]
  match hv : values f with
  | none => rfl
  | some (.bool b) => rw [hv] at h; simp [tameValue] at h
  | some (.str s) =>
    rw [hv] at h
    simp only [tameValue, Bool.or_eq_true, beq_iff_eq, Bool.not_eq_true', beq_eq_false_iff_ne,
      ne_eq] at h
    rcases h with rfl | h
    · by_cases hcb : isCheckboxName f = true
      · simp only [hcb, if_true]
        decide
      · simp only [hcb, if_false]
        decide
    · have hs : ¬ s = "" := by
        intro hs0
        rw [hs0] at h
        exact h pyStrip_empty
      by_cases hcb : isCheckboxName f = true
      · simp only [hcb, if_true, PyVal.truthy]
        by_cases hmem : PyVal.str s ∈ CHECKBOX_VALID_VALUES
        · simp [hmem, hs]
        · simp [hmem, hs, h]
      · simp [hcb, PyVal.truthy, hs, h]

/-- C1 (amended): whenever every stored value of a taxonomy field is a
non-boolean value that is empty or has non-whitespace content, the filled
counts reported by `get_progress` (overall and per-group) equal the counts
of fields satisfying `is_field_filled`.  (Without that restriction the
counts diverge: see the counterexample.) -/
theorem get_progress_counts_eq_isFilled (values : Values) (gs : Groups)
    (h : ∀ f ∈ get_all_fields gs, tameValue (values f) = true) :
    (get_progress values gs).filled
        = ((get_all_fields gs).filter (fun f => is_field_filled f values)).length ∧
      (get_progress values gs).groups.map (fun p => p.2.filled)
        = gs.map (fun g => ((g.2.fields.filter (fun f => is_field_filled f values)).length)) := by
  constructor
  · show ((get_all_fields gs).filter (presentTruthy values)).length = _
    congr 1
    exact List.filter_congr (fun f hf => presentTruthy_eq_isFilled (h f hf))
  · show (gs.map _).map _ = _
    rw [List.map_map]
    refine List.map_congr_left ?_
    intro g hg
    simp only [Function.comp_apply]
    congr 1
    refine List.filter_congr ?_
    intro f hf
    refine presentTruthy_eq_isFilled (h f ?_)
    rw [get_all_fields, List.mem_flatten]
    exact ⟨g.2.fields, List.mem_map_of_mem (fun g => g.2.fields) hg, hf⟩

/-- Concrete taxonomy for the C1 counterexample and witness. -/
def gsC1 : Groups := [("g", GroupInfo.mk 1 ["☐x", "t"])]

/-- Concrete value set for the C1 counterexample: a checkbox field holding
boolean `False` (a canonical unchecked value, hence filled) and a text
field holding boolean `True` (truthy but not filled). -/
def valsC1 : Values := fun f =>
  if f = "☐x" then some (.bool false) else if f = "t" then some (.bool true) else none

/-- C1 counterexample: the claim as stated is false.  On `valsC1` the
overall `filled` count of `get_progress` is 1 (only the truthy boolean is
counted), whereas exactly one field — a different one — satisfies
`is_field_filled`, and the per-group counts disagree likewise. -/
theorem get_progress_counts_cex :
    (get_progress valsC1 gsC1).filled = 1 ∧
      is_field_filled "☐x" valsC1 = true ∧ presentTruthy valsC1 "☐x" = false ∧
      is_field_filled "t" valsC1 = false ∧ presentTruthy valsC1 "t" = true ∧
      ((get_all_fields gsC1).filter (fun f => is_field_filled f valsC1)).length = 1 ∧
      (get_progress valsC1 gsC1).groups.map (fun p => p.2.filled) = [1] ∧
      gsC1.map (fun g => ((g.2.fields.filter (fun f => is_field_filled f valsC1)).length))
        = [1] ∧
      ¬ ((get_all_fields gsC1).filter (fun f => is_field_filled f valsC1))
        = ((get_all_fields gsC1).filter (presentTruthy valsC1)) := by decide

/-- Concrete tame value set for the C1 witness. -/
def valsC1W : Values := fun f =>
  if f = "☐x" then some (.str "是") else if f = "t" then some (.str "") else none

/-- Witness instantiating `get_progress_counts_eq_isFilled` on a concrete
taxonomy with tame (string-valued) stored values. -/
theorem get_progress_counts_eq_isFilled_witness :
    (get_progress valsC1W gsC1).filled
        = ((get_all_fields gsC1).filter (fun f => is_field_filled f valsC1W)).length ∧
      (get_progress valsC1W gsC1).groups.map (fun p => p.2.filled)
        = gsC1.map (fun g => ((g.2.fields.filter (fun f => is_field_filled f valsC1W)).length)) :=
  get_progress_counts_eq_isFilled valsC1W gsC1 (by decide)

/-! ### Claim C4: checkbox field semantics of is_field_filled -/

/-- C4 (amended): for a checkbox field, `is_field_filled` is true for every
member of the canonical checked/unchecked value sets and for any string
that is non-empty after trimming, and false when the field is absent or
when the stored value is a string that is empty after trimming.  (The
original claim additionally asserted falsehood for booleans, but the
booleans are members of the canonical sets and therefore count as filled:
see the counterexample.) -/
theorem checkbox_isFilled_semantics (field : String) (values : Values)
    (hcb : isCheckboxName field = true) :
    (∀ v, values field = some v → CHECKBOX_VALID_VALUES.contains v = true →
        is_field_filled field values = true) ∧
      (∀ s, values field = some (.str s) → ¬ pyStrip s = "" →
        is_field_filled field values = true) ∧
      (values field = none → is_field_filled field values = false) ∧
      (∀ s, values field = some (.str s) → pyStrip s = "" →
        is_field_filled field values = false) := by
  refine ⟨?_, ?_, ?_, ?_⟩
  · intro v hv hval
    rw [is_field_filled, hv]
    have hval2 : v ∈ CHECKBOX_VALID_VALUES := by simpa using hval
    simp [hcb, hval2]
  · intro s hv hstrip
    rw [is_field_filled, hv]
    by_cases hmem : PyVal.str s ∈ CHECKBOX_VALID_VALUES
    · simp [hcb, hmem]
    · simp [hcb, hmem, hstrip]
  · intro hv
    rw [is_field_filled, hv]
  · intro s hv hstrip
    rw [is_field_filled, hv]
    have hmem : ¬ PyVal.str s ∈ CHECKBOX_VALID_VALUES := by
      intro hc
      exact checkbox_contains_str (by simpa using hc) hstrip
    simp [hcb, hmem, hstrip]

/-- Concrete value set storing boolean `True` against a checkbox field. -/
def valsC4 : Values := fun f => if f = "☐盖章" then some (.bool true) else none

/-- C4 counterexample: the claim as stated also asserts that
`is_field_filled` returns false whenever the stored value is a boolean;
but a boolean stored against a checkbox field is a member of the canonical
sets and `is_field_filled` returns true. -/
theorem checkbox_isFilled_bool_cex :
    valsC4 "☐盖章" = some (.bool true) ∧ is_field_filled "☐盖章" valsC4 = true := by decide

/-- Concrete value set for the C4 witness. -/
def valsC4W : Values := fun f => if f = "☐盖章" then some (.str "unchecked") else none

/-- Witness instantiating `checkbox_isFilled_semantics`: the canonical token
"unchecked" stored against a checkbox field counts as filled. -/
theorem checkbox_isFilled_semantics_witness :
    is_field_filled "☐盖章" valsC4W = true :=
  (checkbox_isFilled_semantics "☐盖章" valsC4W (by decide)).1
    (.str "unchecked") rfl (by decide)

/-! ### Claim C9: apply_aliases never overwrites truthy values -/

/-- The frame relation between an input value mapping and a mapping obtained
from it by alias propagation: every truthy entry is preserved verbatim, and
every changed field was previously absent or falsy and is now truthy. -/
def FrameLe (a b : Values) : Prop :=
  (∀ f w, a f = some w → w.truthy = true → b f = some w) ∧
    (∀ f, ¬ b f = a f → presentTruthy a f = false ∧ presentTruthy b f = true)

theorem presentTruthy_eq_true_iff {a : Values} {f : String} :
    presentTruthy a f = true ↔ ∃ w, a f = some w ∧ w.truthy = true := by
  unfold presentTruthy
  match h : a f with
  | some w => simp
  | none => simp

theorem frameLe_refl (a : Values) : FrameLe a a :=
  ⟨fun _ _ h _ => h, fun _ hne => absurd rfl hne⟩

theorem frameLe_trans {a b c : Values} (hab : FrameLe a b) (hbc : FrameLe b c) :
    FrameLe a c := by
  constructor
  · intro f w hw ht
    exact hbc.1 f w (hab.1 f w hw ht) ht
  · intro f hne
    by_cases hmid : b f = a f
    · have hne2 : ¬ c f = b f := fun hx => hne (hx.trans hmid)
      have h2 := hbc.2 f hne2
      refine ⟨?_, h2.2⟩
      rw [show presentTruthy a f = presentTruthy b f from by unfold presentTruthy; rw [hmid]]
      exact h2.1
    · have h1 := hab.2 f hmid
      refine ⟨h1.1, ?_⟩
      rcases presentTruthy_eq_true_iff.mp h1.2 with ⟨w, hw, ht⟩
      exact presentTruthy_eq_true_iff.mpr ⟨w, hbc.1 f w hw ht, ht⟩

theorem applyAliasTarget_frame (v : PyVal) (hv : v.truthy = true)
    (acc : Values) (t : String) : FrameLe acc (applyAliasTarget v acc t) := by
  unfold applyAliasTarget
  match hb : acc t with
  | some w =>
    show FrameLe acc (if w.truthy = true then acc else acc.set t v)
    by_cases hw : w.truthy = true
    · rw [if_pos hw]
      exact frameLe_refl acc
    · rw [if_neg hw]
      constructor
      · intro f u hu hut
        simp only [Values.set]
        by_cases hf : f = t
        · subst hf
          rw [hb] at hu
          injection hu with h2
          subst h2
          exact absurd hut hw
        · rw [if_neg hf]
          exact hu
      · intro f hne
        simp only [Values.set] at hne ⊢
        by_cases hf : f = t
        · subst hf
          constructor
          · unfold presentTruthy
            rw [hb]
            exact Bool.eq_false_iff.mpr hw
          · exact presentTruthy_eq_true_iff.mpr ⟨v, by simp [Values.set], hv⟩
        · rw [if_neg hf] at hne
          exact absurd rfl hne
  | none =>
    constructor
    · intro f u hu hut
      simp only [Values.set]
      by_cases hf : f = t
      · subst hf
        rw [hb] at hu
        cases hu
      · rw [if_neg hf]
        exact hu
    · intro f hne
      simp only [Values.set] at hne ⊢
      by_cases hf : f = t
      · subst hf
        constructor
        · unfold presentTruthy
          rw [hb]
        · exact presentTruthy_eq_true_iff.mpr ⟨v, by simp [Values.set], hv⟩
      · rw [if_neg hf] at hne
        exact absurd rfl hne

theorem applyAliasTargets_frame (v : PyVal) (hv : v.truthy = true)
    (targets : List String) (a : Values) :
    FrameLe a (applyAliasTargets v targets a) := by
  unfold applyAliasTargets
  induction targets generalizing a with
  | nil => exact frameLe_refl a
  | cons t ts ih =>
    rw [List.foldl_cons]
    exact frameLe_trans (applyAliasTarget_frame v hv a t) (ih (applyAliasTarget v a t))

theorem applyAliasStep_frame (a : Values) (st : String × List String) :
    FrameLe a (applyAliasStep a st) := by
  unfold applyAliasStep
  match hsrc : a st.1 with
  | some v =>
    show FrameLe a (if v.truthy = true then applyAliasTargets v st.2 a else a)
    by_cases hv : v.truthy = true
    · rw [if_pos hv]
      exact applyAliasTargets_frame v hv st.2 a
    · rw [if_neg hv]
      exact frameLe_refl a
  | none => exact frameLe_refl a

/-- C9: `apply_aliases` preserves every field that already holds a truthy
value (same value in the output), and any field it changes was previously
absent or falsy and afterwards holds a truthy value (the propagated copy of
a truthy source). -/
theorem apply_aliases_frame (values : Values) (aliases : Aliases) :
    (∀ f v, values f = some v → v.truthy = true →
        apply_aliases values aliases f = some v) ∧
      (∀ f, ¬ apply_aliases values aliases f = values f →
        presentTruthy values f = false ∧
          presentTruthy (apply_aliases values aliases) f = true) := by
  show FrameLe values (apply_aliases values aliases)
  unfold apply_aliases
  induction aliases generalizing values with
  | nil => exact frameLe_refl values
  | cons st rest ih =>
    rw [List.foldl_cons]
    exact frameLe_trans (applyAliasStep_frame values st) (ih (applyAliasStep values st))


/-- Concrete value set for the C9 witness. -/
def valsC9 : Values := fun f =>
  if f = "甲方名称" then some (.str "北京数科")
  else if f = "甲方签章" then some (.str "已有签章") else none

/-- Concrete alias table for the C9 witness. -/
def aliasesC9 : Aliases := [("甲方名称", ["甲方签章", "甲方简称"])]

/-- Witness instantiating `apply_aliases_frame`: a target field that already
holds a truthy value keeps that exact value after alias propagation. -/
theorem apply_aliases_frame_witness :
    apply_aliases valsC9 aliasesC9 "甲方签章" = some (.str "已有签章") :=
  (apply_aliases_frame valsC9 aliasesC9).1 "甲方签章" (.str "已有签章") rfl (by decide)

/-! ### The field-name canonicalizer (`update_state.py`) -/

/-- The character class stripped by `_normalize_field_name`
(`[\s_\-（）()【】\[\]，。！？、；：,.!?;:]`; the common whitespace characters
stand in for the regex's `\s`). -/
def fieldNamePunct : List Char :=
  [' ', '\t', '\n', '\r', '　',
   '_', '-', '（', '）', '(', ')', '【', '】', '[', ']',
   '，', '。', '！', '？', '、', '；', '：', ',', '.', '!', '?', ';', ':']

/-- From `update_state.py`: `_normalize_field_name(name)`: strip, lowercase,
and delete whitespace/punctuation. -/
def _normalize_field_name (name : String) : String :=
  String.mk (((pyStrip name).data.map Char.toLower).filter
    (fun c => !(fieldNamePunct.contains c)))

/-- Python `m.setdefault(key, []).append(f)` on an insertion-ordered dict of
lists. -/
def setdefaultAppend (m : List (String × List String)) (key : String) (f : String) :
    List (String × List String) :=
  if m.any (fun e => e.1 == key) then
    m.map (fun e => if e.1 == key then (e.1, e.2 ++ [f]) else e)
  else m ++ [(key, [f])]

/-- The `normalized_map` built by `canonicalize_updates`: normalized name to
the canonical fields sharing it, in declaration order. -/
def buildNormalizedMap (valid_fields : List String) : List (String × List String) :=
  valid_fields.foldl (fun m f => setdefaultAppend m (_normalize_field_name f) f) []

/-- Python dict assignment `d[k] = v` on an insertion-ordered
association list. -/
def dictSet (d : List (String × α)) (k : String) (v : α) : List (String × α) :=
  if d.any (fun e => e.1 == k) then d.map (fun e => if e.1 == k then (k, v) else e)
  else d ++ [(k, v)]

/-- Result of `canonicalize_updates`: the resolved updates, the rejected raw
keys, and the suggestion lists. -/
structure CanonResult (α : Type) where
  resolved : List (String × α)
  unknown : List String
  suggestions : List (String × List String)
deriving Repr

/-- One iteration of the `canonicalize_updates` loop for a raw `(key, value)`
pair: exact match wins, else a unique normalized match resolves, two or more
normalized matches are ambiguous (first five surfaced), zero fall through to
the fuzzy-suggestion helper `closeMatches` (modelling the stdlib
`difflib.get_close_matches`, an external collaborator passed as a
parameter). -/
def canonStep (closeMatches : String → List String → List String)
    (normalized_map : List (String × List String)) (valid_fields : List String)
    (acc : CanonResult α) (kv : String × α) : CanonResult α :=
  if valid_fields.contains kv.1 then
    { acc with resolved := dictSet acc.resolved kv.1 kv.2 }
  else
    let norm := _normalize_field_name kv.1
    let candidates := (normalized_map.lookup norm).getD []
    match candidates with
    | [c] => { acc with resolved := dictSet acc.resolved c kv.2 }
    | _ :: _ :: _ =>
      { acc with unknown := acc.unknown ++ [kv.1],
                 suggestions := dictSet acc.suggestions kv.1 (candidates.take 5) }
    | [] =>
      let similar := closeMatches kv.1 valid_fields
      { acc with unknown := acc.unknown ++ [kv.1],
                 suggestions := if similar.isEmpty then acc.suggestions
                   else dictSet acc.suggestions kv.1 similar }

/-- From `update_state.py`: `canonicalize_updates(updates, valid_fields)`,
parameterized over the external fuzzy matcher. -/
def canonicalize_updates (closeMatches : String → List String → List String)
    (updates : List (String × α)) (valid_fields : List String) : CanonResult α :=
  updates.foldl (canonStep closeMatches (buildNormalizedMap valid_fields) valid_fields)
    (CanonResult.mk [] [] [])

/-! ### Association-list lemmas for the canonicalizer -/

theorem any_false_lookup_none {α} {m : List (String × α)} {k : String}
    (h : m.any (fun e => e.1 == k) = false) : m.lookup k = none := by
  induction m with
  | nil => rfl
  | cons e es ih =>
    simp only [List.any_cons, Bool.or_eq_false_iff] at h
    rw [List.lookup_cons]
    have : (k == e.1) = false := by
      rcases beq_eq_false_iff_ne.mp h.1 with hne
      exact beq_eq_false_iff_ne.mpr (fun hx => hne hx.symm)
    rw [this]
    exact ih h.2

theorem lookup_append_right {α} {m m2 : List (String × α)} {n : String}
    (h : m.lookup n = none) : (m ++ m2).lookup n = m2.lookup n := by
  induction m with
  | nil => rfl
  | cons e es ih =>
    rw [List.lookup_cons] at h
    rw [List.cons_append, List.lookup_cons]
    rcases hbe : (n == e.1) with _ | _
    · rw [hbe] at h
      exact ih h
    · rw [hbe] at h
      cases h

theorem lookup_append_left {α} {m m2 : List (String × α)} {n : String} {v : α}
    (h : m.lookup n = some v) : (m ++ m2).lookup n = some v := by
  induction m with
  | nil => cases h
  | cons e es ih =>
    rw [List.lookup_cons] at h
    rw [List.cons_append, List.lookup_cons]
    rcases hbe : (n == e.1) with _ | _
    · rw [hbe] at h
      exact ih h
    · rw [hbe] at h
      exact h

theorem dictSet_lookup_self {α} (d : List (String × α)) (k : String) (v : α) :
    (dictSet d k v).lookup k = some v := by
  rw [dictSet]
  rcases hany : d.any (fun e => e.1 == k) with _ | _
  · rw [if_neg (by simp [hany])]
    rw [lookup_append_right (any_false_lookup_none hany)]
    simp [List.lookup_cons]
  · rw [if_pos (by simp [hany])]
    induction d with
    | nil => cases hany
    | cons e es ih =>
      simp only [List.any_cons, Bool.or_eq_true] at hany
      rcases hbe : (e.1 == k) with _ | _
      · rw [hbe] at hany
        simp only [Bool.false_eq_true, false_or] at hany
        rw [List.map_cons, if_neg (by simp [hbe]), List.lookup_cons]
        have : (k == e.1) = false :=
          beq_eq_false_iff_ne.mpr (fun hx => (beq_eq_false_iff_ne.mp hbe) hx.symm)
        rw [this]
        exact ih hany
      · rw [List.map_cons, if_pos (by simp [hbe]), List.lookup_cons]
        simp

theorem dictSet_lookup_other {α} (d : List (String × α)) (k n : String) (v : α)
    (hne : ¬ n = k) : (dictSet d k v).lookup n = d.lookup n := by
  rw [dictSet]
  rcases hany : d.any (fun e => e.1 == k) with _ | _
  · rw [if_neg (by simp [hany])]
    rcases hl : d.lookup n with _ | w
    · rw [lookup_append_right hl, List.lookup_cons]
      simp [beq_eq_false_iff_ne.mpr hne]
    · exact lookup_append_left hl
  · rw [if_pos (by simp [hany])]
    clear hany
    induction d with
    | nil => rfl
    | cons e es ih =>
      rw [List.map_cons, List.lookup_cons]
      rcases hbe : (e.1 == k) with _ | _
      · rw [if_neg (by simp [hbe]), List.lookup_cons]
        rcases hne2 : (n == e.1) with _ | _
        · exact ih
        · rfl
      · rw [if_pos (by simp [hbe]), List.lookup_cons]
        have h1 : (n == (k, v).1) = false := beq_eq_false_iff_ne.mpr hne
        have h2 : (n == e.1) = false := by
          refine beq_eq_false_iff_ne.mpr (fun hx => hne ?_)
          rw [hx]
          exact beq_iff_eq.mp hbe
        rw [h1, h2]
        exact ih

theorem dictSet_mem_keys_self {α} (d : List (String × α)) (k : String) (v : α) :
    k ∈ (dictSet d k v).map Prod.fst := by
  rw [dictSet]
  rcases hany : d.any (fun e => e.1 == k) with _ | _
  · rw [if_neg (by simp [hany])]
    simp
  · rw [if_pos (by simp [hany])]
    simp only [List.any_eq_true] at hany
    obtain ⟨e, he, hbe⟩ := hany
    rw [List.map_map]
    refine List.mem_map.mpr ⟨e, he, ?_⟩
    simp only [Function.comp_apply, hbe, if_pos]

theorem dictSet_mem_keys_of {α} (d : List (String × α)) (k x : String) (v : α)
    (hx : x ∈ d.map Prod.fst) : x ∈ (dictSet d k v).map Prod.fst := by
  rw [dictSet]
  rcases hany : d.any (fun e => e.1 == k) with _ | _
  · rw [if_neg (by simp [hany])]
    rw [List.map_append]
    exact List.mem_append_left _ hx
  · rw [if_pos (by simp [hany])]
    rw [List.map_map]
    obtain ⟨e, he, hex⟩ := List.mem_map.mp hx
    refine List.mem_map.mpr ⟨e, he, ?_⟩
    simp only [Function.comp_apply]
    rcases hbe : (e.1 == k) with _ | _
    · rw [if_neg (by simp)]
      exact hex
    · rw [if_pos (by simp)]
      rw [← hex]
      exact (beq_iff_eq.mp hbe).symm

theorem dictSet_keys_cases {α} (d : List (String × α)) (k x : String) (v : α)
    (hx : x ∈ (dictSet d k v).map Prod.fst) : x = k ∨ x ∈ d.map Prod.fst := by
  rw [dictSet] at hx
  rcases hany : d.any (fun e => e.1 == k) with _ | _
  · rw [if_neg (by simp [hany])] at hx
    rw [List.map_append] at hx
    rcases List.mem_append.mp hx with hx | hx
    · exact Or.inr hx
    · simp only [List.map_cons, List.map_nil, List.mem_singleton] at hx
      exact Or.inl hx
  · rw [if_pos (by simp [hany])] at hx
    rw [List.map_map] at hx
    obtain ⟨e, he, hex⟩ := List.mem_map.mp hx
    simp only [Function.comp_apply] at hex
    rcases hbe : (e.1 == k) with _ | _
    · rw [if_neg (by simp [hbe])] at hex
      exact Or.inr (hex ▸ List.mem_map_of_mem Prod.fst he)
    · rw [if_pos (by simp [hbe])] at hex
      exact Or.inl hex.symm

theorem setdefaultAppend_lookup_self (m : List (String × List String)) (k f : String) :
    ((setdefaultAppend m k f).lookup k).getD [] = ((m.lookup k).getD []) ++ [f] := by
  rw [setdefaultAppend]
  rcases hany : m.any (fun e => e.1 == k) with _ | _
  · rw [if_neg (by simp [hany])]
    rw [lookup_append_right (any_false_lookup_none hany), any_false_lookup_none hany]
    simp [List.lookup_cons]
  · rw [if_pos (by simp [hany])]
    induction m with
    | nil => cases hany
    | cons e es ih =>
      simp only [List.any_cons, Bool.or_eq_true] at hany
      rcases hbe : (e.1 == k) with _ | _
      · rw [hbe] at hany
        simp only [Bool.false_eq_true, false_or] at hany
        rw [List.map_cons, if_neg (by simp [hbe]), List.lookup_cons, List.lookup_cons]
        have : (k == e.1) = false :=
          beq_eq_false_iff_ne.mpr (fun hx => (beq_eq_false_iff_ne.mp hbe) hx.symm)
        rw [this]
        exact ih hany
      · rw [List.map_cons, if_pos (by simp [hbe]), List.lookup_cons, List.lookup_cons]
        have hk : (k == e.1) = true := by
          rw [beq_iff_eq]
          exact (beq_iff_eq.mp hbe).symm
        rw [hk]
        simp

theorem setdefaultAppend_lookup_other (m : List (String × List String)) (k n f : String)
    (hne : ¬ n = k) : (setdefaultAppend m k f).lookup n = m.lookup n := by
  rw [setdefaultAppend]
  rcases hany : m.any (fun e => e.1 == k) with _ | _
  · rw [if_neg (by simp [hany])]
    rcases hl : m.lookup n with _ | w
    · rw [lookup_append_right hl, List.lookup_cons]
      rw [beq_eq_false_iff_ne.mpr hne]
      rfl
    · exact lookup_append_left hl
  · rw [if_pos (by simp [hany])]
    clear hany
    induction m with
    | nil => rfl
    | cons e es ih =>
      rw [List.map_cons, List.lookup_cons]
      rcases hbe : (e.1 == k) with _ | _
      · rw [if_neg (by simp [hbe]), List.lookup_cons]
        rcases hne2 : (n == e.1) with _ | _
        · exact ih
        · rfl
      · rw [if_pos (by simp [hbe]), List.lookup_cons]
        have h1 : (n == e.1) = false := by
          refine beq_eq_false_iff_ne.mpr (fun hx => hne ?_)
          rw [hx]
          exact beq_iff_eq.mp hbe
        rw [h1]
        exact ih

theorem buildNormalizedMap_lookup (valid : List String) (n : String) :
    (((buildNormalizedMap valid).lookup n).getD [])
      = valid.filter (fun f => _normalize_field_name f == n) := by
  suffices H : ∀ (rest : List String) (m : List (String × List String)),
      (((rest.foldl (fun m f => setdefaultAppend m (_normalize_field_name f) f) m).lookup
          n).getD [])
        = ((m.lookup n).getD []) ++ rest.filter (fun f => _normalize_field_name f == n) by
    have := H valid []
    simpa [buildNormalizedMap] using this
  intro rest
  induction rest with
  | nil => intro m; simp
  | cons f rest' ih =>
    intro m
    rw [List.foldl_cons]
    rw [ih]
    rcases hn : (_normalize_field_name f == n) with _ | _
    · rw [setdefaultAppend_lookup_other m _ n f
        (fun hx => by rw [hx] at hn; simp at hn)]
      rw [List.filter_cons, hn]
      simp
    · have hfn : _normalize_field_name f = n := beq_iff_eq.mp hn
      rw [← hfn, setdefaultAppend_lookup_self, hfn]
      rw [List.filter_cons, hn]
      simp

/-! ### Claims C8 and C10: canonicalize_updates -/

/-- The canonical fields whose normalized name matches that of a raw key. -/
def normCandidates (valid : List String) (raw : String) : List String :=
  valid.filter (fun f => _normalize_field_name f == _normalize_field_name raw)

theorem canonStep_candidates {α} (cm : String → List String → List String)
    (valid : List String) (acc : CanonResult α) (kv : String × α) :
    canonStep cm (buildNormalizedMap valid) valid acc kv
      = (if valid.contains kv.1 then { acc with resolved := dictSet acc.resolved kv.1 kv.2 }
        else match normCandidates valid kv.1 with
          | [c] => { acc with resolved := dictSet acc.resolved c kv.2 }
          | _ :: _ :: _ =>
            { acc with unknown := acc.unknown ++ [kv.1],
                       suggestions := dictSet acc.suggestions kv.1
                         ((normCandidates valid kv.1).take 5) }
          | [] =>
            { acc with unknown := acc.unknown ++ [kv.1],
                       suggestions := if (cm kv.1 valid).isEmpty then acc.suggestions
                         else dictSet acc.suggestions kv.1 (cm kv.1 valid) }) := by
  simp only [canonStep, buildNormalizedMap_lookup, normCandidates]

theorem canonStep_resolved_mono {α} (cm : String → List String → List String)
    (valid : List String) (acc : CanonResult α) (kv : String × α) (x : String)
    (hx : x ∈ acc.resolved.map Prod.fst) :
    x ∈ (canonStep cm (buildNormalizedMap valid) valid acc kv).resolved.map Prod.fst := by
  rw [canonStep_candidates]
  by_cases hv : valid.contains kv.1 = true
  · rw [if_pos hv]
    exact dictSet_mem_keys_of _ _ _ _ hx
  · rw [if_neg hv]
    rcases hc : normCandidates valid kv.1 with _ | ⟨c, _ | ⟨c2, cs⟩⟩
    · exact hx
    · exact dictSet_mem_keys_of _ _ _ _ hx
    · exact hx

theorem canonStep_unknown_mono {α} (cm : String → List String → List String)
    (valid : List String) (acc : CanonResult α) (kv : String × α) (x : String)
    (hx : x ∈ acc.unknown) :
    x ∈ (canonStep cm (buildNormalizedMap valid) valid acc kv).unknown := by
  rw [canonStep_candidates]
  by_cases hv : valid.contains kv.1 = true
  · rw [if_pos hv]
    exact hx
  · rw [if_neg hv]
    rcases hc : normCandidates valid kv.1 with _ | ⟨c, _ | ⟨c2, cs⟩⟩
    · exact List.mem_append_left _ hx
    · exact hx
    · exact List.mem_append_left _ hx

theorem canonStep_sugg_stable {α} (cm : String → List String → List String)
    (valid : List String) (acc : CanonResult α) (kv : String × α) (raw : String)
    (hvr : ¬ raw ∈ valid) (hlen : 2 ≤ (normCandidates valid raw).length)
    (hacc : acc.suggestions.lookup raw = some ((normCandidates valid raw).take 5)) :
    (canonStep cm (buildNormalizedMap valid) valid acc kv).suggestions.lookup raw
      = some ((normCandidates valid raw).take 5) := by
  rw [canonStep_candidates]
  by_cases hv : valid.contains kv.1 = true
  · rw [if_pos hv]
    exact hacc
  · rw [if_neg hv]
    by_cases hk : kv.1 = raw
    · subst hk
      rcases hc : normCandidates valid kv.1 with _ | ⟨c, _ | ⟨c2, cs⟩⟩
      · rw [hc] at hlen
        simp at hlen
      · rw [hc] at hlen
        simp at hlen
      · exact dictSet_lookup_self acc.suggestions kv.1 ((c :: c2 :: cs).take 5)
    · rcases hc : normCandidates valid kv.1 with _ | ⟨c, _ | ⟨c2, cs⟩⟩
      · show (if (cm kv.1 valid).isEmpty = true then acc.suggestions
            else dictSet acc.suggestions kv.1 (cm kv.1 valid)).lookup raw = _
        by_cases he : (cm kv.1 valid).isEmpty = true
        · rw [if_pos he]
          exact hacc
        · rw [if_neg he, dictSet_lookup_other _ _ _ _ (fun h => hk h.symm)]
          exact hacc
      · exact hacc
      · exact (dictSet_lookup_other acc.suggestions kv.1 raw ((c :: c2 :: cs).take 5)
          (fun h => hk h.symm)).trans hacc

theorem canonFold_preserve {α} (cm : String → List String → List String)
    (valid : List String) (l : List (String × α)) (acc : CanonResult α) :
    (∀ x, x ∈ acc.resolved.map Prod.fst →
        x ∈ (l.foldl (canonStep cm (buildNormalizedMap valid) valid) acc).resolved.map
          Prod.fst) ∧
      (∀ x, x ∈ acc.unknown →
        x ∈ (l.foldl (canonStep cm (buildNormalizedMap valid) valid) acc).unknown) ∧
      (∀ raw, ¬ raw ∈ valid → 2 ≤ (normCandidates valid raw).length →
        acc.suggestions.lookup raw = some ((normCandidates valid raw).take 5) →
        (l.foldl (canonStep cm (buildNormalizedMap valid) valid) acc).suggestions.lookup raw
          = some ((normCandidates valid raw).take 5)) := by
  induction l generalizing acc with
  | nil => exact ⟨fun x hx => hx, fun x hx => hx, fun raw _ _ hacc => hacc⟩
  | cons kv rest ih =>
    refine ⟨?_, ?_, ?_⟩ <;> rw [List.foldl_cons]
    · intro x hx
      exact (ih _).1 x (canonStep_resolved_mono cm valid acc kv x hx)
    · intro x hx
      exact (ih _).2.1 x (canonStep_unknown_mono cm valid acc kv x hx)
    · intro raw h1 h2 hacc
      exact (ih _).2.2 raw h1 h2 (canonStep_sugg_stable cm valid acc kv raw h1 h2 hacc)

theorem canonFold_establish {α} (cm : String → List String → List String)
    (valid : List String) (l : List (String × α)) :
    ∀ (acc : CanonResult α) (raw : String) (v : α), (raw, v) ∈ l →
      (raw ∈ valid →
          raw ∈ (l.foldl (canonStep cm (buildNormalizedMap valid) valid) acc).resolved.map
            Prod.fst) ∧
        (∀ c, ¬ raw ∈ valid → normCandidates valid raw = [c] →
          c ∈ (l.foldl (canonStep cm (buildNormalizedMap valid) valid) acc).resolved.map
            Prod.fst) ∧
        (¬ raw ∈ valid → 2 ≤ (normCandidates valid raw).length →
          raw ∈ (l.foldl (canonStep cm (buildNormalizedMap valid) valid) acc).unknown ∧
            (l.foldl (canonStep cm (buildNormalizedMap valid) valid) acc).suggestions.lookup
                raw
              = some ((normCandidates valid raw).take 5)) := by
  induction l with
  | nil => intro acc raw v hmem; cases hmem
  | cons kv rest ih =>
    intro acc raw v hmem
    rcases List.mem_cons.mp hmem with heq | hmem'
    · have hkv : kv.1 = raw := by rw [← heq]
      refine ⟨?_, ?_, ?_⟩ <;> rw [List.foldl_cons, canonStep_candidates, hkv]
      · intro hv
        have hcont : valid.contains raw = true := by simpa using hv
        rw [if_pos hcont]
        exact (canonFold_preserve cm valid rest _).1 raw (dictSet_mem_keys_self _ _ _)
      · intro c hv hcand
        have hcont : ¬ valid.contains raw = true := by simpa using hv
        rw [if_neg hcont, hcand]
        exact (canonFold_preserve cm valid rest _).1 c (dictSet_mem_keys_self _ _ _)
      · intro hv hlen
        have hcont : ¬ valid.contains raw = true := by simpa using hv
        rw [if_neg hcont]
        rcases hc : normCandidates valid raw with _ | ⟨c, _ | ⟨c2, cs⟩⟩
        · rw [hc] at hlen
          simp at hlen
        · rw [hc] at hlen
          simp at hlen
        · constructor
          · exact (canonFold_preserve cm valid rest _).2.1 raw
              (List.mem_append_right _ (List.mem_singleton.mpr rfl))
          · rw [← hc]
            refine (canonFold_preserve cm valid rest _).2.2 raw hv hlen ?_
            rw [hc]
            exact dictSet_lookup_self _ raw ((c :: c2 :: cs).take 5)
    · rw [List.foldl_cons]
      exact ih _ raw v hmem'

/-- C8 (amended): for every raw key of an update batch, an exact match
against the valid fields resolves to that key; otherwise a unique
normalized match resolves to the matching canonical field; and two or more
normalized matches are rejected as unknown with the first five (not
necessarily all) matching candidates listed as suggestions. -/
theorem canonicalize_key_resolution {α} (cm : String → List String → List String)
    (updates : List (String × α)) (valid : List String) (raw : String) (v : α)
    (hmem : (raw, v) ∈ updates) :
    (raw ∈ valid →
        raw ∈ (canonicalize_updates cm updates valid).resolved.map Prod.fst) ∧
      (∀ c, ¬ raw ∈ valid → normCandidates valid raw = [c] →
        c ∈ (canonicalize_updates cm updates valid).resolved.map Prod.fst) ∧
      (¬ raw ∈ valid → 2 ≤ (normCandidates valid raw).length →
        raw ∈ (canonicalize_updates cm updates valid).unknown ∧
          (canonicalize_updates cm updates valid).suggestions.lookup raw
            = some ((normCandidates valid raw).take 5)) := by
  rw [canonicalize_updates]
  exact canonFold_establish cm valid updates (CanonResult.mk [] [] []) raw v hmem

theorem canonStep_keys_valid {α} (cm : String → List String → List String)
    (valid : List String) (acc : CanonResult α) (kv : String × α) (x : String)
    (hacc : ∀ y, y ∈ acc.resolved.map Prod.fst → y ∈ valid)
    (hx : x ∈ (canonStep cm (buildNormalizedMap valid) valid acc kv).resolved.map Prod.fst) :
    x ∈ valid := by
  rw [canonStep_candidates] at hx
  by_cases hv : valid.contains kv.1 = true
  · rw [if_pos hv] at hx
    rcases dictSet_keys_cases _ _ _ _ hx with rfl | hx2
    · simpa using hv
    · exact hacc x hx2
  · rw [if_neg hv] at hx
    rcases hc : normCandidates valid kv.1 with _ | ⟨c, _ | ⟨c2, cs⟩⟩ <;> rw [hc] at hx
    · exact hacc x hx
    · rcases dictSet_keys_cases _ _ _ _ hx with rfl | hx2
      · have hcmem : x ∈ normCandidates valid kv.1 := by
          rw [hc]
          exact List.mem_singleton.mpr rfl
        exact (List.mem_filter.mp hcmem).1
      · exact hacc x hx2
    · exact hacc x hx

theorem canonFold_account {α} (cm : String → List String → List String)
    (valid : List String) (l : List (String × α)) :
    ∀ (acc : CanonResult α) (p : String × α), p ∈ l →
      p.1 ∈ (l.foldl (canonStep cm (buildNormalizedMap valid) valid) acc).unknown ∨
        ∃ c, c ∈ valid ∧
          c ∈ (l.foldl (canonStep cm (buildNormalizedMap valid) valid) acc).resolved.map
            Prod.fst ∧
          _normalize_field_name c = _normalize_field_name p.1 := by
  induction l with
  | nil => intro acc p hp; cases hp
  | cons kv rest ih =>
    intro acc p hp
    rcases List.mem_cons.mp hp with heq | hp'
    · subst heq
      rw [List.foldl_cons, canonStep_candidates]
      by_cases hv : valid.contains p.1 = true
      · rw [if_pos hv]
        right
        refine ⟨p.1, by simpa using hv, ?_, rfl⟩
        exact (canonFold_preserve cm valid rest _).1 p.1 (dictSet_mem_keys_self _ _ _)
      · rw [if_neg hv]
        rcases hc : normCandidates valid p.1 with _ | ⟨c, _ | ⟨c2, cs⟩⟩
        · left
          exact (canonFold_preserve cm valid rest _).2.1 p.1
            (List.mem_append_right _ (List.mem_singleton.mpr rfl))
        · right
          have hcmem : c ∈ normCandidates valid p.1 := by
            rw [hc]
            exact List.mem_singleton.mpr rfl
          refine ⟨c, (List.mem_filter.mp hcmem).1, ?_, ?_⟩
          · exact (canonFold_preserve cm valid rest _).1 c (dictSet_mem_keys_self _ _ _)
          · exact beq_iff_eq.mp (List.mem_filter.mp hcmem).2
        · left
          exact (canonFold_preserve cm valid rest _).2.1 p.1
            (List.mem_append_right _ (List.mem_singleton.mpr rfl))
    · rw [List.foldl_cons]
      exact ih _ p hp'

/-- C10 (amended): every key of the resolved mapping produced by
`canonicalize_updates` is a member of the valid-field list, and every raw
input key either appears in the unknown list or resolves to a canonical
field that is a key of the resolved mapping and shares its normalized name
(its value may be overwritten there by a later raw key resolving to the
same canonical field: see the counterexample). -/
theorem canonicalize_accounting {α} (cm : String → List String → List String)
    (updates : List (String × α)) (valid : List String) :
    (∀ k, k ∈ (canonicalize_updates cm updates valid).resolved.map Prod.fst → k ∈ valid) ∧
      (∀ p : String × α, p ∈ updates →
        p.1 ∈ (canonicalize_updates cm updates valid).unknown ∨
          ∃ c, c ∈ valid ∧
            c ∈ (canonicalize_updates cm updates valid).resolved.map Prod.fst ∧
            _normalize_field_name c = _normalize_field_name p.1) := by
  constructor
  · rw [canonicalize_updates]
    suffices H : ∀ (l : List (String × α)) (acc : CanonResult α),
        (∀ y, y ∈ acc.resolved.map Prod.fst → y ∈ valid) →
        ∀ k, k ∈ (l.foldl (canonStep cm (buildNormalizedMap valid) valid) acc).resolved.map
            Prod.fst → k ∈ valid by
      exact H updates (CanonResult.mk [] [] []) (fun y hy => by simp at hy)
    intro l
    induction l with
    | nil => intro acc hacc k; exact hacc k
    | cons kv rest ihl =>
      intro acc hacc k
      rw [List.foldl_cons]
      exact ihl _ (fun y hy => canonStep_keys_valid cm valid acc kv y hacc hy) k
  · intro p hp
    rw [canonicalize_updates]
    exact canonFold_account cm valid updates (CanonResult.mk [] [] []) p hp

/-- A trivial fuzzy matcher (no suggestions), standing in for
`difflib.get_close_matches` in concrete instantiations. -/
def cmNone : String → List String → List String := fun _ _ => []

/-- Valid-field list for the C8 counterexample: six distinct canonical
fields all normalizing to "ab". -/
def validC8 : List String := ["a b", "a_b", "a-b", "a.b", "a,b", "a!b"]

/-- Update batch for the C8 counterexample. -/
def updatesC8 : List (String × String) := [("a  b", "v")]

/-- C8 counterexample: with six canonical fields sharing a normalized name,
an ambiguous raw key is rejected, but only the first five matching
candidates are listed as suggestions — the sixth candidate "a!b" is a
matching candidate yet absent from the suggestion list, refuting the
claim's "all matching candidates listed" clause. -/
theorem canonicalize_suggestions_truncated_cex :
    "a!b" ∈ normCandidates validC8 "a  b" ∧
      (canonicalize_updates cmNone updatesC8 validC8).unknown = ["a  b"] ∧
      (canonicalize_updates cmNone updatesC8 validC8).suggestions.lookup "a  b"
        = some ["a b", "a_b", "a-b", "a.b", "a,b"] ∧
      ¬ "a!b" ∈ (((canonicalize_updates cmNone updatesC8 validC8).suggestions.lookup
        "a  b").getD []) := by decide

/-- Witness instantiating `canonicalize_key_resolution`: a raw key differing
from the canonical field only by an inserted space resolves to it, and an
ambiguous key is rejected with the first five candidates listed. -/
theorem canonicalize_key_resolution_witness :
    "甲方名称" ∈ (canonicalize_updates cmNone [("甲方 名称", "北京数科")]
        ["甲方名称", "乙方名称"]).resolved.map Prod.fst ∧
      "a  b" ∈ (canonicalize_updates cmNone updatesC8 validC8).unknown :=
  ⟨(canonicalize_key_resolution cmNone [("甲方 名称", "北京数科")] ["甲方名称", "乙方名称"]
      "甲方 名称" "北京数科" (List.mem_singleton.mpr rfl)).2.1 "甲方名称" (by decide) (by decide),
    ((canonicalize_key_resolution cmNone updatesC8 validC8 "a  b" "v"
      (List.mem_singleton.mpr rfl)).2.2 (by decide) (by decide)).1⟩

/-- Valid-field list for the C10 counterexample. -/
def validC10 : List String := ["a b"]

/-- Update batch for the C10 counterexample: two raw keys that both resolve
to the same canonical field. -/
def updatesC10 : List (String × String) := [("a b", "1"), ("a_b", "2")]

/-- C10 counterexample: the raw key "a b" carries the value "1", is not in
the unknown list, yet its value does not survive to the resolved mapping —
the later raw key "a_b" resolves to the same canonical field and overwrites
it.  This refutes the claim's "contributes its value" clause as stated. -/
theorem canonicalize_value_overwritten_cex :
    (canonicalize_updates cmNone updatesC10 validC10).unknown = [] ∧
      (canonicalize_updates cmNone updatesC10 validC10).resolved = [("a b", "2")] ∧
      ¬ ("a b", "1") ∈ (canonicalize_updates cmNone updatesC10 validC10).resolved := by decide

/-- Witness instantiating `canonicalize_accounting` on a concrete batch with
one resolvable and one unknown key. -/
theorem canonicalize_accounting_witness :
    ("乙方", "x").1 ∈ (canonicalize_updates cmNone [("甲方", "v"), ("乙方", "x")]
        ["甲方"]).unknown ∨
      ∃ c, c ∈ ["甲方"] ∧
        c ∈ (canonicalize_updates cmNone [("甲方", "v"), ("乙方", "x")]
          ["甲方"]).resolved.map Prod.fst ∧
        _normalize_field_name c = _normalize_field_name ("乙方", "x").1 :=
  (canonicalize_accounting cmNone [("甲方", "v"), ("乙方", "x")] ["甲方"]).2
    ("乙方", "x") (by decide)

/-! ### Claim C3: the currency formatter `amount_to_chinese`

Python exceptions are modelled as `Except.error`; finite floats are
modelled as exact decimals (`Dec`), which is faithful for every value this
pipeline produces up to binary-float representation error, on which the
claim does not depend. -/

/-- An exact decimal number `num / 10 ^ shift`, modelling the finite Python
float values flowing through `amount_to_chinese`. -/
structure Dec where
  num : Int
  shift : Nat
deriving Repr, DecidableEq

/-- A Python float value: a finite (decimal) number, an infinity or NaN. -/
inductive PyFloat where
  | finite (d : Dec)
  | inf
  | neginf
  | nan
deriving Repr, DecidableEq

def pow10 (n : Nat) : Int := Int.ofNat (Nat.pow 10 n)

/-- Multiply a `PyFloat` by a positive integer multiplier
(the `万`/`亿` unit suffixes). -/
def PyFloat.mulNat (f : PyFloat) (m : Nat) : PyFloat :=
  match f with
  | .finite d => .finite (Dec.mk (d.num * Int.ofNat m) d.shift)
  | .inf => .inf
  | .neginf => .neginf
  | .nan => .nan

/-- Python `round(x)` to the nearest integer, ties to even, of a finite
decimal. -/
def Dec.roundHalfEven (d : Dec) : Int :=
  let p := pow10 d.shift
  let f := Int.fdiv d.num p
  let r := d.num - f * p
  if 2 * r < p then f
  else if p < 2 * r then f + 1
  else if f % 2 = 0 then f else f + 1

/-- Python `round(x, 2)` on a finite decimal. -/
def Dec.round2 (d : Dec) : Dec :=
  Dec.mk (Dec.roundHalfEven (Dec.mk (d.num * 100) d.shift)) 2

def PyFloat.round2 : PyFloat → PyFloat
  | .finite d => .finite d.round2
  | .inf => .inf
  | .neginf => .neginf
  | .nan => .nan

/-- Python `int(x)` on a finite decimal: truncation toward zero. -/
def Dec.trunc (d : Dec) : Int := Int.tdiv d.num (pow10 d.shift)

/-- Digit accumulator for decimal strings. -/
def digitStep (a : Nat) (c : Char) : Nat := a * 10 + (c.toNat - 48)

/-- Parse a non-empty all-digit character list. -/
def parseNatDigits (cs : List Char) : Option Nat :=
  if !cs.isEmpty && cs.all Char.isDigit then some (cs.foldl digitStep 0) else none

/-- Split a list at the first character satisfying `p` (that character is
dropped); `none` when no character satisfies `p`. -/
def splitAtFirst (p : Char → Bool) : List Char → Option (List Char × List Char)
  | [] => none
  | c :: rest =>
    if p c then some ([], rest)
    else (splitAtFirst p rest).map (fun q => (c :: q.1, q.2))

/-- Parse a float mantissa `digits[.digits]` (at least one digit overall). -/
def parseMantissa (cs : List Char) : Option Dec :=
  match splitAtFirst (fun c => c == '.') cs with
  | none => (parseNatDigits cs).map (fun n => Dec.mk (Int.ofNat n) 0)
  | some (ip, fp) =>
    if (ip.isEmpty && fp.isEmpty) || !(ip.all Char.isDigit) || !(fp.all Char.isDigit) then
      none
    else some (Dec.mk (Int.ofNat ((ip ++ fp).foldl digitStep 0)) fp.length)

/-- Parse an unsigned float literal `mantissa[(e|E)[sign]digits]`. -/
def parseNumber (cs : List Char) : Option Dec :=
  match splitAtFirst (fun c => c == 'e' || c == 'E') cs with
  | none => parseMantissa cs
  | some (mant, ex) =>
    match parseMantissa mant with
    | none => none
    | some d =>
      let se : Bool × List Char := match ex with
        | '+' :: r => (false, r)
        | '-' :: r => (true, r)
        | r => (false, r)
      match parseNatDigits se.2 with
      | none => none
      | some e =>
        if se.1 then some (Dec.mk d.num (d.shift + e))
        else some (Dec.mk (d.num * pow10 e) d.shift)

/-- Python `float(s)`: strip, optional sign, then `inf`/`infinity`/`nan`
(case-insensitive) or a decimal literal with optional exponent.
(Underscore digit separators and non-ASCII digits, which Python also
accepts, are not modelled; they only enlarge the parsable set.) -/
def pyParseFloat (s : String) : Option PyFloat :=
  let t := (pyStrip s).data
  let su : Bool × List Char := match t with
    | '+' :: r => (false, r)
    | '-' :: r => (true, r)
    | r => (false, r)
  let low := su.2.map Char.toLower
  if low = ("inf").data || low = ("infinity").data then
    some (if su.1 then .neginf else .inf)
  else if low = ("nan").data then some .nan
  else (parseNumber su.2).map (fun d =>
    .finite (if su.1 then Dec.mk (-d.num) d.shift else d))

/-- From `base_config.py`: `DIGITS`. -/
def DIGITS : String := "零壹贰叁肆伍陆柒捌玖"

/-- From `base_config.py`: `UNITS`. -/
def UNITS : List String := ["", "拾", "佰", "仟"]

/-- From `base_config.py`: `BIG_UNITS`. -/
def BIG_UNITS : List String := ["", "万", "亿", "兆"]

/-- Python `s[i]` on a string: negative indices wrap from the end, out of
range raises IndexError. -/
def pyStrIndex (s : String) (i : Int) : Except String Char :=
  let n : Int := Int.ofNat s.data.length
  let j := if i < 0 then i + n else i
  if 0 ≤ j ∧ j < n then .ok (s.data.getD j.toNat ' ')
  else .error "IndexError: string index out of range"

/-- Python `l[i]` on a list of strings for a non-negative index. -/
def pyListIndex (l : List String) (i : Nat) : Except String String :=
  match l.get? i with
  | some x => .ok x
  | none => .error "IndexError: list index out of range"

/-- Python `int(c)` for one character of a decimal string: the digit value,
or the ValueError that `int("-")` raises. -/
def pyCharToInt (c : Char) : Except String Nat :=
  if c.isDigit then .ok (c.toNat - 48)
  else .error "ValueError: invalid literal for int() with base 10"

/-- From `base_config.py`: `_int_to_chinese(n)`.  The loop walks the decimal
string of `n`; a negative `n` makes `int(digit)` raise on the minus sign,
and 17 or more digits drive `BIG_UNITS[section]` out of range — both
modelled as errors. -/
def _int_to_chinese (n : Int) : Except String String :=
  if n = 0 then .ok "零"
  else do
    let s := toString n
    let length := s.data.length
    let r ← s.data.enum.foldlM (fun (acc : String × Bool) ic => do
      let d ← pyCharToInt ic.2
      let pos := length - 1 - ic.1
      let sec := pos / 4
      let posIn := pos % 4
      if d = 0 then
        if posIn = 0 ∧ sec > 0 then do
          let bu ← pyListIndex BIG_UNITS sec
          pure (acc.1 ++ bu, false)
        else pure (acc.1, true)
      else do
        let z := if acc.2 then "零" else ""
        let dc ← pyStrIndex DIGITS (Int.ofNat d)
        let uu ← pyListIndex UNITS posIn
        let base := acc.1 ++ z ++ String.mk [dc] ++ uu
        if posIn = 0 ∧ sec > 0 then do
          let bu ← pyListIndex BIG_UNITS sec
          pure (base ++ bu, false)
        else pure (base, false)) ("", false)
    pure r.1

/-- Python `s.replace(old, "")` for a one-character pattern. -/
def removeChar (c : Char) (s : String) : String :=
  String.mk (s.data.filter (fun x => !(x == c)))

/-- Whether the last character of `s` is `c` (`s.endswith` for one
character). -/
def endsWithChar (s : String) (c : Char) : Bool :=
  match s.data.getLast? with
  | some x => x == c
  | none => false

/-- Drop the last character of a string (`s[:-1]`). -/
def dropLastChar (s : String) : String := String.mk s.data.dropLast

/-- From `base_config.py`: `amount_to_chinese(amount_str)`, with Python
exceptions modelled as `Except.error`.  When the cleaned string does not
parse as a float, the cleaned string is returned unchanged. -/
def amount_to_chinese (amount_str : String) : Except String String := do
  let s1 := pyStrip amount_str
  let s2 := removeChar ',' s1
  let s3 := removeChar '，' s2
  let s4 := removeChar '元' s3
  let s5 := removeChar '整' s4
  let cm : String × Nat :=
    if endsWithChar s5 '万' then (dropLastChar s5, 10000)
    else if endsWithChar s5 '亿' then (dropLastChar s5, 100000000)
    else (s5, 1)
  match pyParseFloat cm.1 with
  | none => pure cm.1
  | some f =>
    match (f.mulNat cm.2).round2 with
    | .nan => .error "ValueError: cannot convert float NaN to integer"
    | .inf => .error "OverflowError: cannot convert float infinity to integer"
    | .neginf => .error "OverflowError: cannot convert float infinity to integer"
    | .finite d => do
      let int_part : Int := d.trunc
      let dec_part : Int :=
        Dec.roundHalfEven (Dec.mk ((d.num - int_part * pow10 d.shift) * 100) d.shift)
      let jiao := Int.tdiv dec_part 10
      let fen := Int.emod dec_part 10
      let result ← if int_part = 0 then pure "零" else _int_to_chinese int_part
      let result := result ++ "元"
      if jiao = 0 ∧ fen = 0 then pure (result ++ "整")
      else if jiao = 0 then do
        let fc ← pyStrIndex DIGITS fen
        pure (result ++ "零" ++ String.mk [fc] ++ "分")
      else if fen = 0 then do
        let jc ← pyStrIndex DIGITS jiao
        pure (result ++ String.mk [jc] ++ "角")
      else do
        let jc ← pyStrIndex DIGITS jiao
        let fc ← pyStrIndex DIGITS fen
        pure (result ++ String.mk [jc] ++ "角" ++ String.mk [fc] ++ "分")

/-- C3 (code bug): the claim says `amount_to_chinese` never raises, and it
does return the cleaned string unchanged on genuinely unparsable input
("abc"); but `"-1"` parses, and `_int_to_chinese` then calls `int("-")` on
the minus sign of `str(-1)` and raises ValueError, while `"inf"` parses as
an infinite float and `int(inf)` raises OverflowError. -/
theorem amount_to_chinese_raises :
    amount_to_chinese "-1" = .error "ValueError: invalid literal for int() with base 10" ∧
      amount_to_chinese "inf"
        = .error "OverflowError: cannot convert float infinity to integer" ∧
      amount_to_chinese "abc" = .ok "abc" := ⟨rfl, rfl, rfl⟩

section AmountSanity

example : amount_to_chinese "500000" = .ok "伍拾万元整" := rfl

example : amount_to_chinese "123456.78" = .ok "壹拾贰万叁仟肆佰伍拾陆元柒角捌分" := rfl

example : amount_to_chinese "50万" = .ok "伍拾万元整" := rfl

example : amount_to_chinese "0.05" = .ok "零元零伍分" := rfl

example : amount_to_chinese "3.5" = .ok "叁元伍角" := rfl

end AmountSanity

/-! ### The contract-type router (`router.py`) -/

/-- A contract variant's routing metadata from `CONTRACT_TYPES` (the
display-only `description`/`parties`/`articles` entries are not read by the
router logic and are not modelled). -/
structure ContractVariant where
  key : String
  name : String
  code : String
  keywords : List String
deriving Repr, DecidableEq

/-- From `router.py`: the `CONTRACT_TYPES` table, in dict order. -/
def CONTRACT_TYPES : List ContractVariant :=
  [ContractVariant.mk "tigong" "数据提供合同" "GF-2025-2615"
    ["数据提供", "提供合同", "提供方", "接收方",
     "卖数据", "买数据", "数据交易", "数据买卖",
     "出售数据", "购买数据", "数据出让"],
   ContractVariant.mk "weituo" "数据委托处理服务合同" "GF-2025-2616"
    ["委托处理", "委托合同", "数据处理", "处理服务",
     "帮我处理数据", "数据加工", "数据清洗", "数据标注",
     "数据脱敏", "数据分析服务", "外包处理"],
   ContractVariant.mk "ronghe" "数据融合开发合同" "GF-2025-2617"
    ["融合开发", "融合合同", "多方合作", "数据融合",
     "共同开发", "联合开发", "数据共建", "数据池",
     "多源数据", "数据汇聚", "联盟", "共享平台"],
   ContractVariant.mk "zhongjie" "数据中介服务合同" "GF-2025-2618"
    ["中介服务", "中介合同", "撮合交易", "交易平台",
     "数据中介", "数据经纪", "居间服务", "交易所",
     "交易撮合", "数据市场", "挂牌上架"]]

/-- Python `str.lower`, character by character. -/
def pyLower (s : String) : String := String.mk (s.data.map Char.toLower)

/-- The punctuation/whitespace class removed by `_normalize_text`
(the common whitespace characters stand in for the regex's `\s`; the
ASCII and curly quotes are written by code point). -/
def routerPunct : List Char :=
  [' ', '\t', '\n', '\r', '　', '-', '_', '，', '。', '！', '？', '、', '；', '：',
   ',', '.', '!', '?', ';', ':', '(', ')', '（', '）', '【', '】', '[', ']',
   Char.ofNat 34, Char.ofNat 39, Char.ofNat 8220, Char.ofNat 8221,
   Char.ofNat 8216, Char.ofNat 8217]

/-- From `router.py`: `_normalize_text(text)`: lowercase, strip, and delete
the punctuation class. -/
def _normalize_text (text : String) : String :=
  String.mk ((pyStrip (pyLower text)).data.filter (fun c => !(routerPunct.contains c)))

/-- Whether `n` occurs as a contiguous sublist of `h`
(Python `needle in haystack` on strings). -/
def isInfixList (n : List Char) : List Char → Bool
  | [] => n.isEmpty
  | c :: t => n.isPrefixOf (c :: t) || isInfixList n t

/-- Python substring test `needle in haystack`. -/
def pyInStr (needle haystack : String) : Bool :=
  isInfixList needle.data haystack.data

/-- From `router.py`: `_extract_code_variants(text)`: the lowered text and
its compaction to ASCII alphanumerics (a two-element set, modelled as a
list). -/
def _extract_code_variants (text : String) : List String :=
  if text.isEmpty then []
  else
    let raw := pyLower text
    [raw, String.mk (raw.data.filter
      (fun c => (decide ('a' ≤ c) && decide (c ≤ 'z')) || c.isDigit))]

/-- One scored routing candidate: variant key, score, and whether an
exact-name/exact-code/exact-key bonus fired for it. -/
structure RouteEntry where
  key : String
  score : Int
  bonus : Bool
deriving Repr, DecidableEq

/-- The exact-display-name condition of the scoring loop:
`info["name"] in raw or _normalize_text(info["name"]) in normalized`. -/
def nameHitB (user_input : String) (v : ContractVariant) : Bool :=
  pyInStr v.name user_input
    || pyInStr (_normalize_text v.name) (_normalize_text user_input)

/-- The exact-code condition of the scoring loop:
`raw_code_variants.intersection(code_variants)` non-empty. -/
def codeHitB (user_input : String) (v : ContractVariant) : Bool :=
  (_extract_code_variants user_input).any
    (fun x => (_extract_code_variants v.code).contains x)

/-- The exact-key condition of the scoring loop:
`type_key in raw.lower()`. -/
def keyHitB (user_input : String) (v : ContractVariant) : Bool :=
  pyInStr v.key (pyLower user_input)

/-- The keyword sum of the scoring loop: `max(4, len(kw_norm))` for every
keyword that occurs in the raw or normalized input. -/
def kwScoreI (user_input : String) (v : ContractVariant) : Int :=
  (v.keywords.map (fun kw =>
    let kwNorm := _normalize_text kw
    if pyInStr kw user_input
        || (!kwNorm.isEmpty && pyInStr kwNorm (_normalize_text user_input)) then
      max 4 (Int.ofNat kwNorm.data.length)
    else 0)).sum

/-- The per-variant scoring loop body of `detect_contract_type_detailed`:
+100 for the display name (raw or normalized), +120 for the contract code
(via code variants), +80 for the variant key in the lowered input, plus
`max(4, len(kw_norm))` for every matching keyword; the boolean records
whether any of the three exact bonuses fired. -/
def scoreVariant (user_input : String) (v : ContractVariant) : RouteEntry :=
  RouteEntry.mk v.key
    ((if nameHitB user_input v then (100 : Int) else 0)
      + (if codeHitB user_input v then 120 else 0)
      + (if keyHitB user_input v then 80 else 0) + kwScoreI user_input v)
    (nameHitB user_input v || codeHitB user_input v || keyHitB user_input v)

/-- All four variants scored against the input, in table order. -/
def routeEntries (user_input : String) : List RouteEntry :=
  CONTRACT_TYPES.map (scoreVariant user_input)

/-- The variants retained in the `scores` dict (positive score only). -/
def positiveEntries (user_input : String) : List RouteEntry :=
  (routeEntries user_input).filter (fun e => decide (0 < e.score))

/-- The descending-score comparison of
`sorted(scores.items(), key=lambda kv: kv[1], reverse=True)`. -/
def scoreDescLe (a b : RouteEntry) : Bool := decide (b.score ≤ a.score)

/-- The candidates ranked by descending score (stable, like Python's
`sorted` with `reverse=True`). -/
def rankedEntries (user_input : String) : List RouteEntry :=
  sortStable scoreDescLe (positiveEntries user_input)

/-- The runner-up score: `ranked[1][1] if len(ranked) > 1 else -1`. -/
def secondScore : List RouteEntry → Int
  | [] => -1
  | s :: _ => s.score

/-- Result record of `detect_contract_type_detailed` (the constant
`"source": "rule"` entry is omitted). -/
structure RouteResult where
  type : Option String
  scores : List (String × Int)
  ambiguous : Bool
deriving Repr, DecidableEq

/-- From `router.py`: `detect_contract_type_detailed(user_input)`. -/
def detect_contract_type_detailed (user_input : String) : RouteResult :=
  let entries := routeEntries user_input
  let exact_hit := entries.any (fun e => e.bonus)
  let scores := (positiveEntries user_input).map (fun e => (e.key, e.score))
  match rankedEntries user_input with
  | [] => RouteResult.mk none [] false
  | best :: rest =>
    let second := secondScore rest
    let ambiguous := !rest.isEmpty && decide (best.score - second ≤ 3) && !exact_hit
    RouteResult.mk (if ambiguous then none else some best.key) scores ambiguous

/-- From `router.py`: `detect_contract_type(user_input)`. -/
def detect_contract_type (user_input : String) : Option String :=
  (detect_contract_type_detailed user_input).type

/-- Whether an exact bonus fired for the top-ranked candidate. -/
def topBonusFired (user_input : String) : Bool :=
  match rankedEntries user_input with
  | [] => false
  | best :: _ => best.bonus

/-- The gap between the top two scores (with Python's `-1` placeholder when
there is a single candidate). -/
def scoreGap (user_input : String) : Int :=
  match rankedEntries user_input with
  | [] => 0
  | best :: rest => best.score - secondScore rest

section RouterSanity

example : detect_contract_type "帮我填一个数据提供合同" = some "tigong" := by decide

example : detect_contract_type "GF-2025-2616" = some "weituo" := by decide

example : detect_contract_type "我是数据交易平台，帮别人撮合交易" = some "zhongjie" := by decide

example : (detect_contract_type_detailed "数据交易数据清洗").ambiguous = true := by decide

example : detect_contract_type "完全无关的输入" = none := by decide

end RouterSanity

/-! ### Claim C2: the router's ambiguity rule -/

theorem scoreDescLe_total (a b : RouteEntry) :
    scoreDescLe a b = false → scoreDescLe b a = true := by
  simp only [scoreDescLe, decide_eq_false_iff_not, decide_eq_true_eq]
  omega

theorem scoreDescLe_trans (a b c : RouteEntry) :
    scoreDescLe a b = true → scoreDescLe b c = true → scoreDescLe a c = true := by
  simp only [scoreDescLe, decide_eq_true_eq]
  omega

theorem kwScoreI_nonneg (user_input : String) (v : ContractVariant) :
    0 ≤ kwScoreI user_input v := by
  refine List.sum_nonneg ?_
  intro x hx
  obtain ⟨kw, _, hkw⟩ := List.mem_map.mp hx
  rw [← hkw]
  dsimp only
  split
  · positivity
  · exact le_refl 0

/-- An upper bound on the keyword sum of a variant: the sum of
`max(4, len(kw_norm))` over all its keywords. -/
def kwBound (v : ContractVariant) : Int :=
  (v.keywords.map (fun kw => max 4 (Int.ofNat (_normalize_text kw).data.length))).sum

theorem kwScoreI_le_bound (user_input : String) (v : ContractVariant) :
    kwScoreI user_input v ≤ kwBound v := by
  refine List.sum_le_sum ?_
  intro kw _
  dsimp only
  split
  · exact le_refl _
  · positivity

theorem kwBound_le_48 (v : ContractVariant) (hv : v ∈ CONTRACT_TYPES) :
    kwBound v ≤ 48 := by
  simp only [CONTRACT_TYPES, List.mem_cons, List.not_mem_nil, or_false] at hv
  rcases hv with rfl | rfl | rfl | rfl <;> decide

theorem scoreVariant_no_bonus_le (user_input : String) (v : ContractVariant)
    (hv : v ∈ CONTRACT_TYPES) (hb : (scoreVariant user_input v).bonus = false) :
    (scoreVariant user_input v).score ≤ 48 := by
  simp only [scoreVariant, Bool.or_eq_false_iff] at hb
  obtain ⟨⟨h1, h2⟩, h3⟩ := hb
  show (if nameHitB user_input v then (100 : Int) else 0) + _ + _ + _ ≤ 48
  rw [h1, h2, h3]
  simp only [Bool.false_eq_true, if_false, zero_add]
  exact le_trans (kwScoreI_le_bound user_input v) (kwBound_le_48 v hv)

theorem scoreVariant_bonus_ge (user_input : String) (v : ContractVariant)
    (hb : (scoreVariant user_input v).bonus = true) :
    80 ≤ (scoreVariant user_input v).score := by
  have hkw := kwScoreI_nonneg user_input v
  have hnn : ∀ (b : Bool) (x : Int), 0 ≤ x → (0 : Int) ≤ if b = true then x else 0 := by
    intro b x hx
    cases b <;> simp [hx]
  have hn1 := hnn (nameHitB user_input v) 100 (by omega)
  have hn2 := hnn (codeHitB user_input v) 120 (by omega)
  have hn3 := hnn (keyHitB user_input v) 80 (by omega)
  simp only [scoreVariant, Bool.or_eq_true] at hb
  show (80 : Int) ≤ _
  rcases hb with (hb | hb) | hb <;>
    rw [show RouteEntry.score _ = (if nameHitB user_input v = true then (100 : Int) else 0)
      + (if codeHitB user_input v = true then 120 else 0)
      + (if keyHitB user_input v = true then 80 else 0) + kwScoreI user_input v from rfl,
      hb, if_pos (rfl : (true : Bool) = true)] <;>
      omega

theorem routeEntries_no_bonus_le (user_input : String) (e : RouteEntry)
    (he : e ∈ routeEntries user_input) (hb : e.bonus = false) : e.score ≤ 48 := by
  obtain ⟨v, hv, hev⟩ := List.mem_map.mp he
  rw [← hev] at hb ⊢
  exact scoreVariant_no_bonus_le user_input v hv hb

theorem routeEntries_bonus_ge (user_input : String) (e : RouteEntry)
    (he : e ∈ routeEntries user_input) (hb : e.bonus = true) : 80 ≤ e.score := by
  obtain ⟨v, _, hev⟩ := List.mem_map.mp he
  rw [← hev] at hb ⊢
  exact scoreVariant_bonus_ge user_input v hb

theorem positive_sub_entries (user_input : String) (e : RouteEntry)
    (he : e ∈ positiveEntries user_input) : e ∈ routeEntries user_input :=
  (List.mem_filter.mp he).1

/-- The code's global `exact_hit` flag coincides with "an exact bonus fired
for the top-ranked candidate": any variant with a bonus scores at least 80,
while any variant without one scores at most 48, so when some variant has a
bonus the top scorer (whose score dominates) must have one too. -/
theorem exact_hit_eq_topBonus (user_input : String) {best : RouteEntry}
    {rest : List RouteEntry} (hr : rankedEntries user_input = best :: rest) :
    (routeEntries user_input).any (fun e => e.bonus) = topBonusFired user_input := by
  have hperm := sortStable_perm scoreDescLe (positiveEntries user_input)
  rw [show sortStable scoreDescLe (positiveEntries user_input)
    = rankedEntries user_input from rfl, hr] at hperm
  have hsorted := sortStable_pairwise scoreDescLe_total scoreDescLe_trans
    (positiveEntries user_input)
  rw [show sortStable scoreDescLe (positiveEntries user_input)
    = rankedEntries user_input from rfl, hr] at hsorted
  have hbestmem : best ∈ routeEntries user_input :=
    positive_sub_entries user_input best
      (hperm.mem_iff.mp (List.mem_cons_self best rest))
  have htop : topBonusFired user_input = best.bonus := by
    simp only [topBonusFired, hr]
  rw [htop]
  rcases hb : best.bonus with _ | _
  · rw [List.any_eq_false]
    intro e he
    rcases hbe : e.bonus with _ | _
    · simp
    · exfalso
      have hge : 80 ≤ e.score := routeEntries_bonus_ge user_input e he hbe
      have hepos : e ∈ positiveEntries user_input := by
        rw [positiveEntries, List.mem_filter]
        refine ⟨he, by simp; omega⟩
      have hemem : e ∈ best :: rest := hperm.mem_iff.mpr hepos
      have hbestscore : e.score ≤ best.score := by
        rcases List.mem_cons.mp hemem with rfl | hin
        · exact le_refl _
        · have := List.rel_of_pairwise_cons hsorted hin
          simpa [scoreDescLe] using this
      have hbestle : best.score ≤ 48 :=
        routeEntries_no_bonus_le user_input best hbestmem hb
      omega
  · rw [List.any_eq_true]
    exact ⟨best, hbestmem, by rw [hb]⟩

/-- C2: `detect_contract_type_detailed` reports `ambiguous = true` (and
then selects no variant) exactly when at least two variants have a positive
score, the gap between the top two scores is at most 3, and no
exact-name/exact-code/exact-key bonus fired for the top-scoring candidate.
(The code tracks a single global `exact_hit` flag, but a bonus always
dominates all keyword-only scores, so the flag is equivalent to a bonus on
the top candidate; in particular a bonus firing only for a non-top
candidate cannot occur.) -/
theorem router_ambiguity (user_input : String) :
    ((detect_contract_type_detailed user_input).ambiguous = true ↔
      (2 ≤ (detect_contract_type_detailed user_input).scores.length ∧
        scoreGap user_input ≤ 3 ∧ topBonusFired user_input = false)) ∧
      ((detect_contract_type_detailed user_input).ambiguous = true →
        (detect_contract_type_detailed user_input).type = none) := by
  have hperm := sortStable_perm scoreDescLe (positiveEntries user_input)
  rcases hr : rankedEntries user_input with _ | ⟨best, rest⟩
  · simp only [detect_contract_type_detailed, hr]
    refine ⟨⟨fun h => by simp at h, ?_⟩, fun h => by simp at h⟩
    rintro ⟨h1, _, _⟩
    simp at h1
  · have hlen : (positiveEntries user_input).length = rest.length + 1 := by
      have hpl := hperm.length_eq
      rw [show sortStable scoreDescLe (positiveEntries user_input)
        = rankedEntries user_input from rfl, hr] at hpl
      simpa using hpl.symm
    have hex := exact_hit_eq_topBonus user_input hr
    have htop : topBonusFired user_input = best.bonus := by
      simp only [topBonusFired, hr]
    have hgap : scoreGap user_input = best.score - secondScore rest := by
      simp only [scoreGap, hr]
    simp only [detect_contract_type_detailed, hr]
    rw [hex, htop, hgap]
    constructor
    · rcases rest with _ | ⟨s2, rest2⟩
      · constructor
        · intro h
          simp at h
        · rintro ⟨h1, _, _⟩
          rw [List.length_map, hlen] at h1
          simp only [List.length_nil] at h1
          omega
      · constructor
        · intro h
          simp only [List.isEmpty_cons, Bool.not_false, Bool.true_and, Bool.and_eq_true,
            decide_eq_true_eq, Bool.not_eq_true'] at h
          refine ⟨?_, h.1, h.2⟩
          rw [List.length_map, hlen]
          simp only [List.length_cons]
          omega
        · rintro ⟨_, h2, h3⟩
          simp only [List.isEmpty_cons, Bool.not_false, Bool.true_and, Bool.and_eq_true,
            decide_eq_true_eq, Bool.not_eq_true']
          exact ⟨h2, h3⟩
    · intro h
      rw [if_pos h]

/-- Witness instantiating `router_ambiguity` on the input
"数据交易数据清洗", which matches one generic keyword of two different
variants with equal weight and no exact bonus: the router reports an
ambiguous near-tie with no selection. -/
theorem router_ambiguity_witness :
    ((detect_contract_type_detailed "数据交易数据清洗").type = none ∧
      2 ≤ (detect_contract_type_detailed "数据交易数据清洗").scores.length ∧
        scoreGap "数据交易数据清洗" ≤ 3 ∧ topBonusFired "数据交易数据清洗" = false) :=
  ⟨(router_ambiguity "数据交易数据清洗").2 (by decide),
    (router_ambiguity "数据交易数据清洗").1.mp (by decide)⟩

/-! ### The template renderer (`fill_contract.py` / `init_contract.py`)

The regex `\x7b\x7b(.+?)\x7d\x7d` used by both scripts is modelled by an
explicit scanner.  At a match position, the lazy group `(.+?)` is the
shortest non-empty run of characters (each matched by `.`, hence not a
newline) followed by the closing marker; scanning resumes after the match
and replacement text is never rescanned, exactly like `re.sub`. -/

/-- Find the earliest closing marker: split `cs` as
`group ++ close ++ rest` where the group is newline-free (possibly empty);
`none` when a newline intervenes before any closing marker or none
exists. -/
def closeSplit : List Char → Option (List Char × List Char)
  | [] => none
  | c :: rest =>
    if c = '}' ∧ rest.head? = some '}' then some ([], rest.tail)
    else if c = '\n' then none
    else (closeSplit rest).map (fun p => (c :: p.1, p.2))

/-- The lazy group after an opening marker: the shortest non-empty
newline-free group followed by the closing marker, and the rest of the
text after that marker. -/
def lazyBody : List Char → Option (List Char × List Char)
  | [] => none
  | c :: rest => if c = '\n' then none else (closeSplit rest).map (fun p => (c :: p.1, p.2))

/-- Whether the regex matches at the head of the text: two opening braces
followed by a lazy body; returns the group and the rest after the close. -/
def headMatch : List Char → Option (List Char × List Char)
  | '{' :: '{' :: rest => lazyBody rest
  | _ => none

theorem closeSplit_eq {cs g r : List Char} (h : closeSplit cs = some (g, r)) :
    cs = g ++ '}' :: '}' :: r ∧ '\n' ∉ g := by
  induction cs generalizing g r with
  | nil => cases h
  | cons c rest ih =>
    rw [closeSplit] at h
    by_cases h1 : c = '}' ∧ rest.head? = some '}'
    · rw [if_pos h1] at h
      injection h with h2
      injection h2 with hg hr
      subst hg
      subst hr
      rcases rest with _ | ⟨d, t⟩
      · cases h1.2
      · have hd : d = '}' := by
          have := h1.2
          simp at this
          exact this
        simp [h1.1, hd]
    · rw [if_neg h1] at h
      by_cases h2 : c = '\n'
      · rw [if_pos h2] at h
        cases h
      · rw [if_neg h2] at h
        rcases hcs : closeSplit rest with _ | ⟨g', r'⟩
        · rw [hcs] at h
          cases h
        · rw [hcs] at h
          injection h with h3
          injection h3 with hg hr
          subst hr
          obtain ⟨he, hnl⟩ := ih hcs
          subst hg
          constructor
          · rw [he]
            rfl
          · intro hmem
            rcases List.mem_cons.mp hmem with hc | hc
            · exact h2 hc.symm
            · exact hnl hc

theorem closeSplit_length {cs g r : List Char} (h : closeSplit cs = some (g, r)) :
    g.length + 2 + r.length = cs.length := by
  obtain ⟨he, _⟩ := closeSplit_eq h
  rw [he]
  simp
  omega

theorem lazyBody_eq {cs g r : List Char} (h : lazyBody cs = some (g, r)) :
    cs = g ++ '}' :: '}' :: r ∧ g ≠ [] ∧ '\n' ∉ g := by
  rcases cs with _ | ⟨c, rest⟩
  · cases h
  · rw [lazyBody] at h
    by_cases h2 : c = '\n'
    · rw [if_pos h2] at h
      cases h
    · rw [if_neg h2] at h
      rcases hcs : closeSplit rest with _ | ⟨g', r'⟩
      · rw [hcs] at h
        cases h
      · rw [hcs] at h
        injection h with h3
        injection h3 with hg hr
        subst hr
        obtain ⟨he, hnl⟩ := closeSplit_eq hcs
        subst hg
        refine ⟨by rw [he]; rfl, by simp, ?_⟩
        intro hmem
        rcases List.mem_cons.mp hmem with hc | hc
        · exact h2 hc.symm
        · exact hnl hc

theorem lazyBody_length {cs g r : List Char} (h : lazyBody cs = some (g, r)) :
    g.length + 2 + r.length = cs.length := by
  obtain ⟨he, _, _⟩ := lazyBody_eq h
  rw [he]
  simp
  omega

theorem closeSplit_cons_ne_none {c : Char} {rest : List Char} (hc : ¬ c = '\n')
    (h : ¬ closeSplit rest = none) : ¬ closeSplit (c :: rest) = none := by
  rw [closeSplit]
  by_cases h1 : c = '}' ∧ rest.head? = some '}'
  · rw [if_pos h1]
    simp
  · rw [if_neg h1, if_neg hc]
    rcases hcs : closeSplit rest with _ | p
    · exact absurd hcs h
    · simp

theorem closeSplit_isSome (a b : List Char) (hnl : '\n' ∉ a) :
    ¬ closeSplit (a ++ '}' :: '}' :: b) = none := by
  induction a with
  | nil =>
    rw [List.nil_append, closeSplit]
    simp
  | cons c a' ih =>
    have hc : ¬ c = '\n' := fun hx => hnl (hx ▸ List.mem_cons_self c a')
    have hnl' : '\n' ∉ a' := fun hx => hnl (List.mem_cons_of_mem c hx)
    rw [List.cons_append]
    exact closeSplit_cons_ne_none hc (ih hnl')

theorem lazyBody_isSome (n b : List Char) (hne : n ≠ []) (hnl : '\n' ∉ n) :
    ¬ lazyBody (n ++ '}' :: '}' :: b) = none := by
  rcases n with _ | ⟨c, n'⟩
  · exact absurd rfl hne
  · have hc : ¬ c = '\n' := fun hx => hnl (hx ▸ List.mem_cons_self c n')
    have hnl' : '\n' ∉ n' := fun hx => hnl (List.mem_cons_of_mem c hx)
    rw [List.cons_append, lazyBody, if_neg hc]
    rcases hcs : closeSplit (n' ++ '}' :: '}' :: b) with _ | p
    · exact absurd hcs (closeSplit_isSome n' b hnl')
    · simp

theorem headMatch_eq {cs g r : List Char} (h : headMatch cs = some (g, r)) :
    cs = '{' :: '{' :: (g ++ '}' :: '}' :: r) ∧ g ≠ [] ∧ '\n' ∉ g := by
  rw [headMatch.eq_def] at h
  split at h
  · obtain ⟨he, hne, hnl⟩ := lazyBody_eq h
    exact ⟨by rw [← he], hne, hnl⟩
  · cases h

theorem headMatch_length {cs g r : List Char} (h : headMatch cs = some (g, r)) :
    g.length + 4 + r.length = cs.length := by
  obtain ⟨he, _, _⟩ := headMatch_eq h
  rw [he]
  simp
  omega

theorem headMatch_cons_cons (t : List Char) : headMatch ('{' :: '{' :: t) = lazyBody t := rfl

theorem headMatch_ne_open {c : Char} {cs : List Char} (h : ¬ c = '{') :
    headMatch (c :: cs) = none := by
  rw [headMatch.eq_def]
  split
  · rename_i heq
    injection heq with h1 _
    exact absurd h1 h
  · rfl

theorem headMatch_second {cs : List Char} (h : ¬ cs.head? = some '{') :
    headMatch ('{' :: cs) = none := by
  rw [headMatch.eq_def]
  split
  · rename_i heq
    injection heq with _ h1
    rw [h1] at h
    simp at h
  · rfl

/-- Result of `replace_in_text`: the rewritten text, the unresolved field
names recorded (`remaining`), and the filled count. -/
structure RenderRes where
  out : List Char
  rem : List String
  cnt : Nat
deriving Repr, DecidableEq

/-- The `replacer(m)` callback of `replace_in_text` for a matched key:
checkbox keys become a checked or unchecked glyph (unfilled ones are
recorded and cleared to the unchecked glyph); text keys become the trimmed
stringified value (unfilled ones are recorded and cleared to the empty
string). -/
def replacer (values : Values) (key : String) : List Char × List String × Nat :=
  if isCheckboxName key then
    match values key with
    | some v =>
      if is_field_filled key values then
        (if is_checkbox_checked v then ['☑'] else ['☐'], [], 1)
      else (['☐'], [key], 0)
    | none => (['☐'], [key], 0)
  else
    match values key with
    | some v =>
      if is_field_filled key values then ((pyStrip v.pyStr).data, [], 1)
      else ([], [key], 0)
    | none => ([], [key], 0)

/-- From `fill_contract.py`: `replace_in_text(text, values)`: scan left to
right; at each match consume the token, emit the replacement and continue
after the close marker; elsewhere emit the character unchanged. -/
def replaceInText (values : Values) : List Char → RenderRes
  | [] => RenderRes.mk [] [] 0
  | c :: rest =>
    match h : headMatch (c :: rest) with
    | some (g, r) =>
      let p := replacer values (String.mk g)
      let res := replaceInText values r
      RenderRes.mk (p.1 ++ res.out) (p.2.1 ++ res.rem) (p.2.2 + res.cnt)
    | none =>
      let res := replaceInText values rest
      RenderRes.mk (c :: res.out) res.rem res.cnt
termination_by cs => cs.length
decreasing_by
  · have := headMatch_length h
    simp only [List.length_cons] at this ⊢
    omega
  · simp

/-- From `init_contract.py`: `re.findall` with the same pattern — the
ordered list of matched placeholder names in a text. -/
def extractKeys : List Char → List String
  | [] => []
  | c :: rest =>
    match h : headMatch (c :: rest) with
    | some (g, r) => String.mk g :: extractKeys r
    | none => extractKeys rest
termination_by cs => cs.length
decreasing_by
  · have := headMatch_length h
    simp only [List.length_cons] at this ⊢
    omega
  · simp

theorem replaceInText_nil (values : Values) : replaceInText values [] = RenderRes.mk [] [] 0 := by
  rw [replaceInText]

theorem replaceInText_match {values : Values} {c : Char} {rest g r : List Char}
    (h : headMatch (c :: rest) = some (g, r)) :
    replaceInText values (c :: rest)
      = RenderRes.mk ((replacer values (String.mk g)).1 ++ (replaceInText values r).out)
          ((replacer values (String.mk g)).2.1 ++ (replaceInText values r).rem)
          ((replacer values (String.mk g)).2.2 + (replaceInText values r).cnt) := by
  rw [replaceInText]
  split
  · rename_i g' r' heq
    rw [heq] at h
    injection h with h2
    injection h2 with hg hr
    subst hg
    subst hr
    rfl
  · rename_i heq
    rw [heq] at h
    cases h

theorem replaceInText_no_match {values : Values} {c : Char} {rest : List Char}
    (h : headMatch (c :: rest) = none) :
    replaceInText values (c :: rest)
      = RenderRes.mk (c :: (replaceInText values rest).out) (replaceInText values rest).rem
          (replaceInText values rest).cnt := by
  rw [replaceInText]
  split
  · rename_i g' r' heq
    rw [heq] at h
    cases h
  · rfl

theorem extractKeys_nil : extractKeys [] = [] := by
  rw [extractKeys]

theorem extractKeys_match {c : Char} {rest g r : List Char}
    (h : headMatch (c :: rest) = some (g, r)) :
    extractKeys (c :: rest) = String.mk g :: extractKeys r := by
  rw [extractKeys]
  split
  · rename_i g' r' heq
    rw [heq] at h
    injection h with h2
    injection h2 with hg hr
    subst hg
    subst hr
    rfl
  · rename_i heq
    rw [heq] at h
    cases h

theorem extractKeys_no_match {c : Char} {rest : List Char}
    (h : headMatch (c :: rest) = none) :
    extractKeys (c :: rest) = extractKeys rest := by
  rw [extractKeys]
  split
  · rename_i g' r' heq
    rw [heq] at h
    cases h
  · rfl

/-- From `fill_contract.py`: `fill_docx_template` over the text-bearing
nodes of the document (paragraphs and table-cell paragraphs, supplied as a
list of node texts; the document container itself is an external
collaborator): collect every node's `remaining` set and return it as a
sorted deduplicated list (`sorted(unfilled)` on the accumulated set).  The
`if '\x7b\x7b' not in full_text` short-circuit in `process_paragraph` only
skips texts on which `replace_in_text` records nothing anyway. -/
def fill_docx_template (values : Values) (paragraphs : List String) : List String :=
  sortStable (fun a b => decide (a ≤ b))
    (((paragraphs.map (fun p => (replaceInText values p.data).rem)).flatten).eraseDups)

section RendererSanity

example : extractKeys ("AB\x7b\x7b甲方\x7d\x7dC").data = ["甲方"] := by
  rw [show ("AB\x7b\x7b甲方\x7d\x7dC").data = ['A', 'B', '{', '{', '甲', '方', '}', '}', 'C']
    from rfl]
  rw [extractKeys_no_match
    (show headMatch ['A', 'B', '{', '{', '甲', '方', '}', '}', 'C'] = none from rfl)]
  rw [extractKeys_no_match
    (show headMatch ['B', '{', '{', '甲', '方', '}', '}', 'C'] = none from rfl)]
  rw [extractKeys_match
    (show headMatch ['{', '{', '甲', '方', '}', '}', 'C'] = some (['甲', '方'], ['C']) from rfl)]
  rw [extractKeys_no_match (show headMatch ['C'] = none from rfl), extractKeys_nil]

example :
    (replaceInText (fun f => if f = "甲方" then some (.str "京公司") else none)
      ("AB\x7b\x7b甲方\x7d\x7dC").data).out = "AB京公司C".data := by
  rw [show ("AB\x7b\x7b甲方\x7d\x7dC").data = ['A', 'B', '{', '{', '甲', '方', '}', '}', 'C']
    from rfl]
  rw [replaceInText_no_match
    (show headMatch ['A', 'B', '{', '{', '甲', '方', '}', '}', 'C'] = none from rfl)]
  rw [replaceInText_no_match
    (show headMatch ['B', '{', '{', '甲', '方', '}', '}', 'C'] = none from rfl)]
  rw [replaceInText_match
    (show headMatch ['{', '{', '甲', '方', '}', '}', 'C'] = some (['甲', '方'], ['C']) from rfl)]
  rw [replaceInText_no_match (show headMatch ['C'] = none from rfl), replaceInText_nil]
  decide

end RendererSanity

theorem filled_present {key : String} {values : Values}
    (h : is_field_filled key values = true) : ∃ v, values key = some v := by
  rw [is_field_filled] at h
  rcases hv : values key with _ | v
  · rw [hv] at h
    cases h
  · exact ⟨v, rfl⟩

theorem replacer_rem_nil {values : Values} {key : String}
    (h : is_field_filled key values = true) : (replacer values key).2.1 = [] := by
  obtain ⟨v, hv⟩ := filled_present h
  by_cases hc : isCheckboxName key = true
  · simp [replacer, hc, hv, h]
  · simp [replacer, hc, hv, h]

theorem rem_nil_of_filled (values : Values) :
    ∀ (n : Nat) (cs : List Char), cs.length ≤ n →
      (∀ k ∈ extractKeys cs, is_field_filled k values = true) →
      (replaceInText values cs).rem = [] := by
  intro n
  induction n with
  | zero =>
    intro cs hlen _
    rcases cs with _ | ⟨c, rest⟩
    · rw [replaceInText_nil]
    · simp at hlen
  | succ m ih =>
    intro cs hlen hfill
    rcases cs with _ | ⟨c, rest⟩
    · rw [replaceInText_nil]
    · rcases hm : headMatch (c :: rest) with _ | ⟨g, r⟩
      · rw [replaceInText_no_match hm]
        refine ih rest (by simp at hlen; omega) (fun k hk => hfill k ?_)
        rw [extractKeys_no_match hm]
        exact hk
      · rw [replaceInText_match hm]
        have hkey : is_field_filled (String.mk g) values = true := by
          apply hfill
          rw [extractKeys_match hm]
          exact List.mem_cons_self _ _
        have hlenr : r.length ≤ m := by
          have := headMatch_length hm
          simp only [List.length_cons] at this hlen
          omega
        have hrest := ih r hlenr (fun k hk => hfill k (by
          rw [extractKeys_match hm]
          exact List.mem_cons_of_mem _ hk))
        simp [replacer_rem_nil hkey, hrest]

theorem renderRemFlatten_nil {values : Values} :
    ∀ (l : List String), (∀ p ∈ l, (replaceInText values p.data).rem = []) →
      (l.map (fun p => (replaceInText values p.data).rem)).flatten = [] := by
  intro l
  induction l with
  | nil => intro _; rfl
  | cons p l' ih =>
    intro h
    simp only [List.map_cons, List.flatten_cons]
    rw [h p (List.mem_cons_self _ _), List.nil_append]
    exact ih (fun q hq => h q (List.mem_cons_of_mem _ hq))

/-- C5: Round-trip: for every template (the list of node texts of the
document) and every value mapping in which each field name occurring as a
placeholder token in some node satisfies `is_field_filled`, rendering via
`fill_docx_template` produces an empty list of unresolved field names. -/
theorem render_filled_no_unresolved (values : Values) (paragraphs : List String)
    (h : ∀ p ∈ paragraphs, ∀ k ∈ extractKeys p.data, is_field_filled k values = true) :
    fill_docx_template values paragraphs = [] := by
  rw [fill_docx_template]
  rw [renderRemFlatten_nil paragraphs
    (fun p hp => rem_nil_of_filled values p.data.length p.data (le_refl _) (h p hp))]
  rfl

theorem replaceInText_out_nil (values : Values) : (replaceInText values []).out = [] := by
  rw [replaceInText_nil]

theorem replaceInText_out_no_match {values : Values} {c : Char} {rest : List Char}
    (h : headMatch (c :: rest) = none) :
    (replaceInText values (c :: rest)).out = c :: (replaceInText values rest).out := by
  rw [replaceInText_no_match h]

theorem replaceInText_out_match {values : Values} {c : Char} {rest g r : List Char}
    (h : headMatch (c :: rest) = some (g, r)) :
    (replaceInText values (c :: rest)).out
      = (replacer values (String.mk g)).1 ++ (replaceInText values r).out := by
  rw [replaceInText_match h]

theorem pyStrip_mem {x : Char} {s : String} (h : x ∈ (pyStrip s).data) : x ∈ s.data := by
  rw [pyStrip] at h
  have h1 : x ∈ ((s.data.dropWhile Char.isWhitespace).reverse.dropWhile
      Char.isWhitespace).reverse := h
  rw [List.mem_reverse] at h1
  have h2 := (List.dropWhile_sublist _).subset h1
  rw [List.mem_reverse] at h2
  exact (List.dropWhile_sublist _).subset h2

theorem replacer_no_open {values : Values} {key : String}
    (hv : ∀ k s, values k = some (.str s) → '{' ∉ s.data) :
    ∀ x ∈ (replacer values key).1, ¬ x = '{' := by
  intro x hx hxe
  subst hxe
  rcases hcb : isCheckboxName key with _ | _
  · rcases hval : values key with _ | v
    · simp [replacer, hcb, hval] at hx
    · rcases hff : is_field_filled key values with _ | _
      · simp [replacer, hcb, hval, hff] at hx
      · rcases v with s | b
        · simp [replacer, hcb, hval, hff, PyVal.pyStr] at hx
          exact hv key s hval (pyStrip_mem hx)
        · rw [is_field_filled] at hff
          simp [hval, hcb] at hff
  · rcases hval : values key with _ | v
    · simp [replacer, hcb, hval] at hx
    · rcases hff : is_field_filled key values with _ | _
      · simp [replacer, hcb, hval, hff] at hx
      · rcases hck : is_checkbox_checked v with _ | _
        · simp [replacer, hcb, hval, hff, hck] at hx
        · simp [replacer, hcb, hval, hff, hck] at hx

theorem out_head_no_match {values : Values} {cs : List Char} (h : headMatch cs = none) :
    (replaceInText values cs).out.head? = cs.head? := by
  rcases cs with _ | ⟨c, rest⟩
  · rw [replaceInText_out_nil]
  · rw [replaceInText_out_no_match h]
    rfl

theorem closeSplit_out_none (values : Values) :
    ∀ (n : Nat) (cs : List Char), cs.length ≤ n → closeSplit cs = none →
      closeSplit (replaceInText values cs).out = none := by
  intro n
  induction n with
  | zero =>
    intro cs hlen hcs
    rcases cs with _ | ⟨c, rest⟩
    · rw [replaceInText_out_nil]
      rfl
    · simp at hlen
  | succ m ih =>
    intro cs hlen hcs
    rcases cs with _ | ⟨c, rest⟩
    · rw [replaceInText_out_nil]
      rfl
    · rcases hm : headMatch (c :: rest) with _ | ⟨g, r⟩
      · rw [replaceInText_out_no_match hm]
        rw [closeSplit] at hcs
        by_cases h1 : c = '}' ∧ rest.head? = some '}'
        · rw [if_pos h1] at hcs
          cases hcs
        · rw [if_neg h1] at hcs
          by_cases h2 : c = '\n'
          · rw [closeSplit]
            have hne : ¬ (c = '}' ∧ (replaceInText values rest).out.head? = some '}') := by
              intro hcon
              have := hcon.1
              rw [h2] at this
              exact absurd this (by decide)
            rw [if_neg hne, if_pos h2]
          · rw [if_neg h2] at hcs
            have hrest : closeSplit rest = none := by
              rcases hq : closeSplit rest with _ | p
              · rfl
              · rw [hq] at hcs
                cases hcs
            have hmr : headMatch rest = none := by
              rcases hq : headMatch rest with _ | ⟨g', r'⟩
              · rfl
              · exfalso
                obtain ⟨he, hgne, hnl⟩ := headMatch_eq hq
                have : ¬ closeSplit rest = none := by
                  rw [he]
                  exact closeSplit_isSome ('{' :: '{' :: g') r' (by
                    intro hmem
                    rcases List.mem_cons.mp hmem with hx | hx
                    · exact absurd hx (by decide)
                    · rcases List.mem_cons.mp hx with hy | hy
                      · exact absurd hy (by decide)
                      · exact hnl hy)
                exact this hrest
            rw [closeSplit]
            have hhead : (replaceInText values rest).out.head? = rest.head? :=
              out_head_no_match hmr
            have hne1 : ¬ (c = '}' ∧ (replaceInText values rest).out.head? = some '}') := by
              intro hcon
              exact h1 ⟨hcon.1, by rw [← hhead]; exact hcon.2⟩
            rw [if_neg hne1, if_neg h2]
            rw [ih rest (by simp only [List.length_cons] at hlen; omega) hrest]
            rfl
      · exfalso
        obtain ⟨he, hgne, hnl⟩ := headMatch_eq hm
        have : ¬ closeSplit (c :: rest) = none := by
          rw [he]
          exact closeSplit_isSome ('{' :: '{' :: g) r (by
            intro hmem
            rcases List.mem_cons.mp hmem with hx | hx
            · exact absurd hx (by decide)
            · rcases List.mem_cons.mp hx with hy | hy
              · exact absurd hy (by decide)
              · exact hnl hy)
        exact this hcs

theorem lazyBody_out_none (values : Values) (cs : List Char) (h : lazyBody cs = none) :
    lazyBody (replaceInText values cs).out = none := by
  rcases cs with _ | ⟨c, rest⟩
  · rw [replaceInText_out_nil]
    rfl
  · rw [lazyBody] at h
    by_cases h2 : c = '\n'
    · have hm : headMatch (c :: rest) = none := headMatch_ne_open (by rw [h2]; decide)
      rw [replaceInText_out_no_match hm, lazyBody, if_pos h2]
    · rw [if_neg h2] at h
      have hrest : closeSplit rest = none := by
        rcases hq : closeSplit rest with _ | p
        · rfl
        · rw [hq] at h
          cases h
      have hm : headMatch (c :: rest) = none := by
        rcases hq : headMatch (c :: rest) with _ | ⟨g, r⟩
        · rfl
        · exfalso
          obtain ⟨he, hgne, hnl⟩ := headMatch_eq hq
          have hrest2 : rest = '{' :: (g ++ '}' :: '}' :: r) := by
            injection he with _ h3
          have : ¬ closeSplit rest = none := by
            rw [hrest2]
            exact closeSplit_isSome ('{' :: g) r (by
              intro hmem
              rcases List.mem_cons.mp hmem with hx | hx
              · exact absurd hx (by decide)
              · exact hnl hx)
          exact this hrest
      rw [replaceInText_out_no_match hm, lazyBody, if_neg h2]
      rw [closeSplit_out_none values rest.length rest (le_refl _) hrest]
      rfl

theorem extractKeys_append_no_open {a : List Char} (ha : ∀ x ∈ a, ¬ x = '{')
    (t : List Char) : extractKeys (a ++ t) = extractKeys t := by
  induction a with
  | nil => rfl
  | cons c a' ih =>
    have hc : ¬ c = '{' := ha c (List.mem_cons_self _ _)
    rw [List.cons_append, extractKeys_no_match (headMatch_ne_open hc)]
    exact ih (fun x hx => ha x (List.mem_cons_of_mem _ hx))

theorem extractKeys_out_nil (values : Values)
    (hv : ∀ k s, values k = some (.str s) → '{' ∉ s.data) :
    ∀ (n : Nat) (cs : List Char), cs.length ≤ n →
      extractKeys (replaceInText values cs).out = [] := by
  intro n
  induction n with
  | zero =>
    intro cs hlen
    rcases cs with _ | ⟨c, rest⟩
    · rw [replaceInText_out_nil, extractKeys_nil]
    · simp at hlen
  | succ m ih =>
    intro cs hlen
    rcases cs with _ | ⟨c, rest⟩
    · rw [replaceInText_out_nil, extractKeys_nil]
    · rcases hm : headMatch (c :: rest) with _ | ⟨g, r⟩
      · rw [replaceInText_out_no_match hm]
        by_cases hc : c = '{'
        · subst hc
          rcases rest with _ | ⟨d, t⟩
          · rw [replaceInText_out_nil]
            rw [extractKeys_no_match (show headMatch ['{'] = none from rfl), extractKeys_nil]
          · by_cases hd : d = '{'
            · subst hd
              rw [headMatch_cons_cons] at hm
              have hmr : headMatch ('{' :: t) = none := by
                rcases hq : headMatch ('{' :: t) with _ | ⟨g', r'⟩
                · rfl
                · exfalso
                  obtain ⟨he, hgne, hnl⟩ := headMatch_eq hq
                  have ht : t = '{' :: (g' ++ '}' :: '}' :: r') := by
                    injection he with _ h3
                  have : ¬ lazyBody t = none := by
                    rw [ht, lazyBody, if_neg (by decide)]
                    rcases hq2 : closeSplit (g' ++ '}' :: '}' :: r') with _ | p
                    · exact absurd hq2 (closeSplit_isSome g' r' hnl)
                    · simp
                  exact this hm
              rw [replaceInText_out_no_match hmr]
              rw [extractKeys_no_match (by
                rw [headMatch_cons_cons]
                exact lazyBody_out_none values t hm)]
              have hih := ih ('{' :: t) (by simp only [List.length_cons] at hlen ⊢; omega)
              rw [replaceInText_out_no_match hmr] at hih
              exact hih
            · have hmr : headMatch (d :: t) = none := headMatch_ne_open hd
              rw [replaceInText_out_no_match hmr]
              rw [extractKeys_no_match (headMatch_second (by
                intro hcon
                simp at hcon
                exact hd hcon))]
              have hih := ih (d :: t) (by simp only [List.length_cons] at hlen ⊢; omega)
              rw [replaceInText_out_no_match hmr] at hih
              exact hih
        · rw [extractKeys_no_match (headMatch_ne_open hc)]
          exact ih rest (by simp only [List.length_cons] at hlen; omega)
      · rw [replaceInText_out_match hm]
        rw [extractKeys_append_no_open (replacer_no_open hv)]
        refine ih r ?_
        have := headMatch_length hm
        simp only [List.length_cons] at this hlen
        omega

/-- A marker-delimited token inside a character list: an occurrence of the
open marker, a non-empty newline-free name, and the close marker. -/
def containsToken (l : List Char) : Prop :=
  ∃ a n b, n ≠ [] ∧ '\n' ∉ n ∧ l = a ++ '{' :: '{' :: (n ++ '}' :: '}' :: b)

theorem containsToken_extract_ne :
    ∀ (n : Nat) (l : List Char), l.length ≤ n → containsToken l →
      ¬ extractKeys l = [] := by
  intro n
  induction n with
  | zero =>
    intro l hlen hct
    obtain ⟨a, nn, b, hne, hnl, heq⟩ := hct
    rcases l with _ | _
    · have := congrArg List.length heq
      simp at this
      omega
    · simp at hlen
  | succ m ih =>
    intro l hlen hct
    obtain ⟨a, nn, b, hne, hnl, heq⟩ := hct
    rcases l with _ | ⟨c, rest⟩
    · have := congrArg List.length heq
      simp at this
      omega
    · rcases a with _ | ⟨a0, a'⟩
      · simp only [List.nil_append] at heq
        have hc : c = '{' := by injection heq
        have hrest : rest = '{' :: (nn ++ '}' :: '}' :: b) := by injection heq with _ h2
        subst hc
        subst hrest
        rcases hq : lazyBody (nn ++ '}' :: '}' :: b) with _ | ⟨g, r⟩
        · exact absurd hq (lazyBody_isSome nn b hne hnl)
        · rw [extractKeys_match (by rw [headMatch_cons_cons]; exact hq)]
          simp
      · simp only [List.cons_append] at heq
        have hrest : rest = a' ++ '{' :: '{' :: (nn ++ '}' :: '}' :: b) := by
          injection heq with _ h2
        have hct2 : containsToken rest := ⟨a', nn, b, hne, hnl, hrest⟩
        rcases hm : headMatch (c :: rest) with _ | ⟨g, r⟩
        · rw [extractKeys_no_match hm]
          exact ih rest (by simp only [List.length_cons] at hlen; omega) hct2
        · rw [extractKeys_match hm]
          simp

/-- C6 (amended): for every node text and every value mapping whose stored
strings contain no opening-marker character, the output of
`replace_in_text` contains no marker-delimited token; the claim's original
form — which also allows value strings that themselves contain
marker-like characters — is refuted by the counterexample where a value
string re-introduces a token into the output. -/
theorem render_no_marker_token (values : Values) (cs : List Char)
    (hv : ∀ k s, values k = some (.str s) → '{' ∉ s.data) :
    ¬ containsToken (replaceInText values cs).out := by
  intro hct
  exact containsToken_extract_ne (replaceInText values cs).out.length _ (le_refl _) hct
    (extractKeys_out_nil values hv cs.length cs (le_refl _))

def valsC6W : Values := fun f => if f = "a" then some (.str "v") else none

theorem render_no_marker_token_witness :
    (∀ k s, valsC6W k = some (.str s) → '{' ∉ s.data) ∧
    ¬ containsToken (replaceInText valsC6W ("X\x7b\x7ba\x7d\x7d").data).out := by
  have hv : ∀ k s, valsC6W k = some (.str s) → '{' ∉ s.data := by
    intro k s h
    simp only [valsC6W] at h
    by_cases hk : k = "a"
    · rw [if_pos hk] at h
      injection h with h2
      injection h2 with h3
      rw [← h3]
      decide
    · rw [if_neg hk] at h
      cases h
  exact ⟨hv, render_no_marker_token valsC6W _ hv⟩

def valsC6 : Values := fun f => if f = "a" then some (.str "\x7b\x7bb\x7d\x7d") else none

theorem render_marker_token_cex :
    containsToken (replaceInText valsC6 ("X\x7b\x7ba\x7d\x7d").data).out := by
  refine ⟨['X'], ['b'], [], by simp, by decide, ?_⟩
  rw [show ("X\x7b\x7ba\x7d\x7d").data = ['X', '{', '{', 'a', '}', '}'] from rfl]
  rw [replaceInText_out_no_match
    (show headMatch ['X', '{', '{', 'a', '}', '}'] = none from rfl)]
  rw [replaceInText_out_match
    (show headMatch ['{', '{', 'a', '}', '}'] = some (['a'], []) from rfl)]
  rw [replaceInText_out_nil]
  decide

def valsC5 : Values := fun f => if f = "甲方" then some (.str "京数公司") else none

theorem render_filled_no_unresolved_witness :
    (∀ p ∈ (["甲方：\x7b\x7b甲方\x7d\x7d"] : List String), ∀ k ∈ extractKeys p.data,
      is_field_filled k valsC5 = true) ∧
    fill_docx_template valsC5 ["甲方：\x7b\x7b甲方\x7d\x7d"] = [] := by
  have hfill : ∀ p ∈ (["甲方：\x7b\x7b甲方\x7d\x7d"] : List String), ∀ k ∈ extractKeys p.data,
      is_field_filled k valsC5 = true := by
    intro p hp k hk
    simp only [List.mem_singleton] at hp
    subst hp
    rw [show ("甲方：\x7b\x7b甲方\x7d\x7d").data
      = ['甲', '方', '：', '{', '{', '甲', '方', '}', '}'] from rfl] at hk
    rw [extractKeys_no_match
      (show headMatch ['甲', '方', '：', '{', '{', '甲', '方', '}', '}'] = none from rfl)] at hk
    rw [extractKeys_no_match
      (show headMatch ['方', '：', '{', '{', '甲', '方', '}', '}'] = none from rfl)] at hk
    rw [extractKeys_no_match
      (show headMatch ['：', '{', '{', '甲', '方', '}', '}'] = none from rfl)] at hk
    rw [extractKeys_match
      (show headMatch ['{', '{', '甲', '方', '}', '}'] = some (['甲', '方'], []) from rfl)] at hk
    rw [extractKeys_nil] at hk
    simp only [List.mem_singleton] at hk
    subst hk
    decide
  exact ⟨hfill, render_filled_no_unresolved valsC5 _ hfill⟩

section SanityChecks

example : is_field_filled ("甲方")
    (fun f => if f = "甲方" then some (.str "北京公司") else none) = true := by decide

example : is_field_filled ("甲方")
    (fun f => if f = "甲方" then some (.bool true) else none) = false := by decide

example : is_field_filled ("☐同意")
    (fun f => if f = "☐同意" then some (.bool false) else none) = true := by decide

example : is_field_filled ("☐同意")
    (fun f => if f = "☐同意" then some (.str "  ") else none) = false := by decide

example : is_field_filled ("甲方") (fun _ => none) = false := by decide

example :
    (get_progress (fun f => if f = "☐x" then some (.bool false) else none)
      [("g", GroupInfo.mk 1 ["☐x"])]).filled = 0 := by decide

example :
    get_next_unfilled_group
      (fun f => if f = "a" then some (.str "v") else none)
      [("g2", GroupInfo.mk 2 ["b"]), ("g1", GroupInfo.mk 1 ["a"])] = some "g2" := by decide

end SanityChecks

end ContractFiller
